import Mathlib

/-!
Verification development for `unified_transcribe.py`, a single-file audio
transcription pipeline.  The Python source is embedded shallowly: pure string
helpers become Lean functions on `String`/`List Char`; the filesystem and the
external capabilities (sha256 hashing, ffmpeg transcoding, the remote
transcription service, clock readings) are modelled by explicit state passing
over `PState` plus per-item oracle fields on `Item` describing the outcome of
each external call.  Machine behaviour that the source delegates to Python's
standard library (`str.strip`, `str.split`, `Path.stem`, `Path.with_suffix`,
`json.loads`) is reproduced faithfully; JSON decoding itself is an oracle
parameter `decode`, where `decode l = some v` means `json.loads(l)` returned a
dict whose `get("sha256", "")` is `v`, and `none` means it raised.
-/

/-- Python's default whitespace set for `str.strip()` / `str.split()`
(restricted to the ASCII whitespace characters). -/
def pyIsSpace (c : Char) : Bool :=
  c == ' ' || c == '\t' || c == '\n' || c == '\r' || c == '\x0b' || c == '\x0c'

/-- Python `str.strip()`: drop leading and trailing whitespace. -/
def pyStrip (s : String) : String :=
  ⟨((s.data.dropWhile pyIsSpace).reverse.dropWhile pyIsSpace).reverse⟩

/-- The `bad` list of `safe_stem` (unified_transcribe.py lines 167-168):
path separators, quotes, wildcards, angle brackets, pipe, smart quotes. -/
def badChars : List Char :=
  ['/', '\\', ':', '*', '?', '"', '<', '>', '|', '“', '”', '‘', '’']

/-- One replacement step of `safe_stem`: each bad character becomes a space. -/
def replBad (c : Char) : Char := if c ∈ badChars then ' ' else c

/-- Python `str.split()` with no separator: split on runs of whitespace,
dropping empty pieces.  `acc` holds the current word reversed. -/
def pysplitAux : List Char → List Char → List (List Char)
  | [], acc => if acc = [] then [] else [acc.reverse]
  | c :: cs, acc =>
    if pyIsSpace c then
      if acc = [] then pysplitAux cs [] else acc.reverse :: pysplitAux cs []
    else pysplitAux cs (c :: acc)

/-- Python `" ".join(words)`. -/
def joinWords : List (List Char) → List Char
  | [] => []
  | [w] => w
  | w :: ws => w ++ ' ' :: joinWords ws

/-- `safe_stem` (unified_transcribe.py lines 167-173): replace each bad
character by a space, then `" ".join(out.split())`. -/
def safe_stem (s : String) : String :=
  ⟨joinWords (pysplitAux (s.data.map replBad) [])⟩

/-- Scan a reversed character list up to and including the first `'.'`;
`none` when there is no dot.  Used to model Python `Path.stem` /
`Path.with_suffix`, which cut at the last dot of the name. -/
def revDropToDot : List Char → Option (List Char)
  | [] => none
  | c :: cs => if c = '.' then some cs else revDropToDot cs

/-- Python `Path.stem`: the name without its last suffix.  A suffix exists
only when the last dot is neither the first nor the last character. -/
def pyStem (s : String) : String :=
  match s.data.reverse with
  | [] => s
  | c :: _ =>
    if c = '.' then s
    else
      match revDropToDot s.data.reverse with
      | none => s
      | some rest => if rest = [] then s else ⟨rest.reverse⟩

/-- Python `audio_path.with_suffix(".compressed.m4a")`
(unified_transcribe.py line 193): replace the last suffix. -/
def withSuffixCompressed (s : String) : String :=
  pyStem s ++ ".compressed.m4a"

/-- The decimal digit character for `d`. -/
def digitChar (d : Nat) : Char := Char.ofNat (48 + d)

/-- Decimal digits of `n`, most significant first, with structural fuel
(`fuel = n` always suffices since `n / 10 < n` for `n ≠ 0`). -/
def rawDigits : Nat → Nat → List Nat
  | 0, _ => []
  | fuel + 1, n => if n = 0 then [] else rawDigits fuel (n / 10) ++ [n % 10]

/-- Python `str(n)` for a natural number. -/
def natStr (n : Nat) : String :=
  if n = 0 then "0" else ⟨(rawDigits n n).map digitChar⟩

/-- Value of a most-significant-first digit list; inverse of `rawDigits`. -/
def undigits (l : List Nat) : Nat := l.foldl (fun a d => 10 * a + d) 0

/-- The candidate file name `f"{base_name} {i}.txt"` probed by
`make_unique_txt_path` for counter `i`. -/
def probeName (base : String) (i : Nat) : String :=
  base ++ " " ++ natStr i ++ ".txt"

/-- The `while True` probe loop of `make_unique_txt_path`
(unified_transcribe.py lines 181-186), rendered with structural fuel.
`folder` is the list of file names present in the transcripts directory;
`folder.length + 1` fuel provably suffices (see `exists_free_probe`). -/
def probeLoop (folder : List String) (base : String) : Nat → Nat → String
  | 0, i => probeName base i
  | fuel + 1, i =>
    if probeName base i ∈ folder then probeLoop folder base fuel (i + 1)
    else probeName base i

/-- `make_unique_txt_path` (unified_transcribe.py lines 176-186): return
`base_name + ".txt"` if unused, else probe `base_name + " 2.txt"`,
`" 3.txt"`, ... until an unused name is found. -/
def make_unique_txt_path (folder : List String) (base : String) : String :=
  if (base ++ ".txt") ∈ folder then probeLoop folder base (folder.length + 1) 2
  else base ++ ".txt"

/-- Outcome of an external call that either returns a string or raises. -/
inductive Res where
  | ok (v : String)
  | err (e : String)
deriving DecidableEq

/-- True exactly for a successful outcome. -/
def isOkRes : Res → Bool
  | Res.ok _ => true
  | Res.err _ => false

/-- Run configuration read from the environment in `main`
(unified_transcribe.py lines 278-287): model id, language hint (`none` when
`TRANSCRIBE_AUTO_DETECT=1`), the two archive-move flags, and the upload
size limit. -/
structure Config where
  model : String
  language : Option String
  moveAudio : Bool
  moveSkipped : Bool
  maxBytes : Nat
deriving DecidableEq

/-- One candidate audio file together with the oracle outcomes of the
external calls made while processing it: `hashR` for `sha256_file`,
`transcodeOk` for the ffmpeg invocation, `transcribeR` for the remote
transcription (already stripped, as `transcribe_with_openai` returns it),
`stamp` for `date_stamp_for_filename` (mtime formatting) and `now` for
`datetime.now().isoformat()`. -/
structure Item where
  name : String
  size : Nat
  stamp : String
  now : String
  hashR : Res
  transcodeOk : Bool
  transcribeR : Res
deriving DecidableEq

/-- One line of `transcribed_index.jsonl` (unified_transcribe.py
lines 343-354). -/
structure Record where
  sha256 : String
  audio_file : String
  transcript_file : String
  date_stamp : String
  model : String
  language_hint : String
  created_at : String
deriving DecidableEq

/-- The state threaded through `main`'s loop: the in-memory seen set
`done_hashes`, the ledger file, the error log, the transcripts directory
(file names, and written files with contents), the archive directory
(name to content identity), substitute files currently on disk, the three
tally counters, and the number of transcription calls issued. -/
structure PState where
  done : List String
  ledger : List Record
  errlog : List String
  txtNames : List String
  txtFiles : List (String × String)
  archive : List (String × String)
  temps : List String
  ok : Nat
  skipped : Nat
  failed : Nat
  calls : Nat
deriving DecidableEq

/-- The state at the start of a run over a fresh inbox tree. -/
def initState : PState :=
  { done := [], ledger := [], errlog := [], txtNames := [], txtFiles := [],
    archive := [], temps := [], ok := 0, skipped := 0, failed := 0, calls := 0 }

/-- The digest an item's successful hash call yields (dummy `""` on error). -/
def itemHash (it : Item) : String :=
  match it.hashR with
  | Res.ok h => h
  | Res.err _ => ""

/-- An item whose hash call, size gate (when needed) and transcription call
all succeed. -/
def goodItem (cfg : Config) (it : Item) : Prop :=
  isOkRes it.hashR = true ∧ (cfg.maxBytes < it.size → it.transcodeOk = true) ∧
    isOkRes it.transcribeR = true

instance (cfg : Config) (it : Item) : Decidable (goodItem cfg it) := by
  unfold goodItem; infer_instance

/-- One line of the append-only error log
(unified_transcribe.py lines 304 and 365). -/
def errLine (now name tag detail : String) : String :=
  now ++ "  " ++ name ++ "  " ++ tag ++ "  " ++ detail

/-- `Path.replace` into a directory: store `v` under `k`, overwriting any
existing entry with that name. -/
def setAssoc (l : List (String × String)) (k v : String) : List (String × String) :=
  (l.filter (fun p => p.1 ≠ k)) ++ [(k, v)]

/-- Python `language or "auto"` (unified_transcribe.py lines 337 and 351). -/
def langHint (cfg : Config) : String := cfg.language.getD "auto"

/-- The ledger record appended on success (unified_transcribe.py
lines 343-354); `txtName` is the transcript file name inside `Transcripts/`. -/
def mkRecord (cfg : Config) (it : Item) (h txtName : String) : Record :=
  { sha256 := h, audio_file := it.name,
    transcript_file := "Transcripts/" ++ txtName,
    date_stamp := it.stamp, model := cfg.model,
    language_hint := langHint cfg, created_at := it.now }

/-- Python `"\n".join(lines)`. -/
def joinNL : List String → String
  | [] => ""
  | [x] => x
  | x :: xs => x ++ "\n" ++ joinNL xs

/-- The transcript artifact contents (unified_transcribe.py lines 332-341):
`"\n".join(header_lines) + text + "\n"` where `header_lines` is the five
header lines followed by an empty string. -/
def transcriptContent (stamp name hash model lang text : String) : String :=
  joinNL ["DateStamp " ++ stamp, "AudioFile " ++ name, "Sha256 " ++ hash,
          "Model " ++ model, "LanguageHint " ++ lang, ""] ++ text ++ "\n"

/-- The success path of the loop body (unified_transcribe.py lines 332-360):
write the transcript, append the ledger record, add the hash to the seen
set, bump the success tally and, when configured, move the audio file to
the archive, overwriting any file of the same name there. -/
def commitSuccess (cfg : Config) (s : PState) (it : Item) (h txtName text : String) : PState :=
  let content := transcriptContent it.stamp it.name h cfg.model (langHint cfg) text
  let s1 : PState :=
    { s with txtFiles := s.txtFiles ++ [(txtName, content)],
             txtNames := s.txtNames ++ [txtName],
             ledger := s.ledger ++ [mkRecord cfg it h txtName],
             done := s.done.insert h,
             ok := s.ok + 1 }
  if cfg.moveAudio then { s1 with archive := setAssoc s1.archive it.name h } else s1

/-- A per-item failure (unified_transcribe.py lines 301-305 and 362-366):
bump the failure tally and append one line to the error log. -/
def failItem (s : PState) (it : Item) (tag detail : String) : PState :=
  { s with failed := s.failed + 1,
           errlog := s.errlog ++ [errLine it.now it.name tag detail] }

/-- `working_audio.unlink()` in the `finally` block: remove the file from
disk. -/
def unlinkTemp (s : PState) (p : String) : PState :=
  { s with temps := s.temps.filter (fun q => q ≠ p) }

/-- `maybe_compress_if_too_large` (unified_transcribe.py lines 189-214): at
or below the limit, return the input path with no side effect; above it,
delete any stale compressed copy, then invoke ffmpeg, which on success
leaves the substitute on disk and on failure raises (`Res.err`). -/
def maybe_compress_if_too_large (s : PState) (it : Item) (maxBytes : Nat) :
    PState × Res :=
  if it.size ≤ maxBytes then (s, Res.ok it.name)
  else
    let comp := withSuffixCompressed it.name
    let s1 : PState := { s with temps := s.temps.filter (fun q => q ≠ comp) }
    if it.transcodeOk then ({ s1 with temps := s1.temps ++ [comp] }, Res.ok comp)
    else (s1, Res.err "ffmpeg failed")

/-- The transcript path chosen for item `it` in state `s`:
`base_name = f"{stamp} {cleaned_stem}"` followed by the unique-path choice
(unified_transcribe.py lines 316-319). -/
def txtNameFor (s : PState) (it : Item) : String :=
  make_unique_txt_path s.txtNames (it.stamp ++ " " ++ safe_stem (pyStem it.name))

/-- The `try`/`except`/`finally` body for a fresh (non-skipped) item
(unified_transcribe.py lines 316-373): compute the unique transcript path,
apply the size gate, call the transcription service, commit on success or
log the failure, and in all cases delete the substitute when one was
created (`created_temp = working_audio != audio`). -/
def attemptItem (cfg : Config) (s : PState) (it : Item) (h : String) : PState :=
  let txtName := txtNameFor s it
  match (if cfg.maxBytes < it.size then maybe_compress_if_too_large s it cfg.maxBytes
         else (s, Res.ok it.name)) with
  | (s1, Res.err e) => failItem s1 it "transcribe_error" e
  | (s1, Res.ok working) =>
    let s2 : PState := { s1 with calls := s1.calls + 1 }
    let s3 := match it.transcribeR with
      | Res.ok text => commitSuccess cfg s2 it h txtName text
      | Res.err e => failItem s2 it "transcribe_error" e
    if working = it.name then s3 else unlinkTemp s3 working

/-- One iteration of `main`'s loop (unified_transcribe.py lines 298-373):
hash the file (failure is logged and the loop continues), skip when the
hash is already in the seen set (optionally archiving the file), otherwise
run the processing attempt. -/
def processItem (cfg : Config) (s : PState) (it : Item) : PState :=
  match it.hashR with
  | Res.err e => failItem s it "hash_error" e
  | Res.ok h =>
    if h ∈ s.done then
      let s1 : PState := { s with skipped := s.skipped + 1 }
      if cfg.moveSkipped then { s1 with archive := setAssoc s1.archive it.name h }
      else s1
    else attemptItem cfg s it h

/-- The whole run over the candidate list (in the deterministic order
`iter_audio_files` produces). -/
def runPipeline (cfg : Config) (s : PState) (items : List Item) : PState :=
  items.foldl (processItem cfg) s

/-- `return 0 if failed == 0 else 1` (unified_transcribe.py line 376). -/
def mainExit (s : PState) : Nat := if s.failed = 0 then 0 else 1

/-- One line of `load_done_hashes` (unified_transcribe.py lines 143-153):
strip, skip blanks, decode, and keep a non-empty `sha256` value.  `decode`
is the JSON oracle described in the module docstring. -/
def loadStep (decode : String → Option String) (done : List String) (line : String) :
    List String :=
  if pyStrip line = "" then done
  else
    match decode (pyStrip line) with
    | some h => if h ≠ "" then done.insert h else done
    | none => done

/-- `load_done_hashes` (unified_transcribe.py lines 138-154): `none` models
a missing index file; otherwise fold `loadStep` over the file's lines. -/
def load_done_hashes (decode : String → Option String) (file : Option (List String)) :
    List String :=
  match file with
  | none => []
  | some lines => lines.foldl (loadStep decode) []

/-! ### Helper lemmas: strings and decimal digits -/

theorem strData_append (a b : String) : (a ++ b).data = a.data ++ b.data := rfl

theorem strMk_eq {a b : List Char} (h : a = b) : String.mk a = String.mk b := by
  rw [h]

theorem rawDigits_lt : ∀ fuel n, ∀ d ∈ rawDigits fuel n, d < 10 := by
  intro fuel
  induction fuel with
  | zero => intro n d hd; simp [rawDigits] at hd
  | succ f ih =>
    intro n d hd
    by_cases h0 : n = 0
    · simp [rawDigits, h0] at hd
    · simp only [rawDigits, h0, if_false, List.mem_append, List.mem_singleton] at hd
      rcases hd with hd | hd
      · exact ih _ _ hd
      · subst hd; exact Nat.mod_lt _ (by norm_num)

theorem undigits_rawDigits : ∀ fuel n, n ≤ fuel → undigits (rawDigits fuel n) = n := by
  intro fuel
  induction fuel with
  | zero => intro n hn; interval_cases n; simp [rawDigits, undigits]
  | succ f ih =>
    intro n hn
    by_cases h0 : n = 0
    · simp [rawDigits, h0, undigits]
    · have hdiv : n / 10 ≤ f := by
        have := Nat.div_lt_self (Nat.pos_of_ne_zero h0) (by norm_num : 1 < 10)
        omega
      simp only [rawDigits, h0, if_false]
      unfold undigits
      rw [List.foldl_append]
      have := ih (n / 10) hdiv
      unfold undigits at this
      rw [this]
      simp [Nat.div_add_mod]

theorem digitChar_inj : ∀ d, d < 10 → ∀ e, e < 10 → digitChar d = digitChar e → d = e := by
  decide

theorem map_digitChar_inj :
    ∀ (l₁ l₂ : List Nat), (∀ d ∈ l₁, d < 10) → (∀ d ∈ l₂, d < 10) →
      l₁.map digitChar = l₂.map digitChar → l₁ = l₂ := by
  intro l₁
  induction l₁ with
  | nil => intro l₂ _ _ h; cases l₂ <;> simp_all
  | cons a l ih =>
    intro l₂ h1 h2 h
    cases l₂ with
    | nil => simp at h
    | cons b l' =>
      simp only [List.map_cons, List.cons.injEq] at h
      have ha : a = b := digitChar_inj a (h1 a (by simp)) b (h2 b (by simp)) h.1
      have hl := ih l' (fun d hd => h1 d (by simp [hd])) (fun d hd => h2 d (by simp [hd])) h.2
      rw [ha, hl]

theorem natStr_inj {a b : Nat} (ha : a ≠ 0) (hb : b ≠ 0) (h : natStr a = natStr b) :
    a = b := by
  unfold natStr at h
  rw [if_neg ha, if_neg hb] at h
  have hmap : (rawDigits a a).map digitChar = (rawDigits b b).map digitChar := by
    exact congrArg String.data h
  have hraw : rawDigits a a = rawDigits b b :=
    map_digitChar_inj _ _ (rawDigits_lt a a) (rawDigits_lt b b) hmap
  have h1 := undigits_rawDigits a a le_rfl
  have h2 := undigits_rawDigits b b le_rfl
  rw [← h1, ← h2, hraw]

theorem probeName_inj (base : String) {i j : Nat} (hi : i ≠ 0) (hj : j ≠ 0)
    (h : probeName base i = probeName base j) : i = j := by
  have hd := congrArg String.data h
  simp only [probeName, strData_append] at hd
  have h1 := List.append_cancel_right hd
  have h2 := List.append_cancel_left h1
  have : natStr i = natStr j := by
    cases hni : natStr i with
    | mk di =>
      cases hnj : natStr j with
      | mk dj =>
        rw [hni, hnj] at h2
        exact strMk_eq h2
  exact natStr_inj hi hj this

/-! ### Helper lemmas: the unique-name probe loop -/

theorem exists_free_probe (folder : List String) (base : String) :
    ∃ j, 2 ≤ j ∧ j ≤ folder.length + 2 ∧ probeName base j ∉ folder := by
  by_contra hc
  push_neg at hc
  have hinj : Function.Injective (fun k : Nat => probeName base (k + 2)) := by
    intro x y hxy
    have := probeName_inj base (i := x + 2) (j := y + 2) (by omega) (by omega) hxy
    omega
  have hsub : (Finset.range (folder.length + 1)).image (fun k => probeName base (k + 2))
      ⊆ folder.toFinset := by
    intro x hx
    simp only [Finset.mem_image, Finset.mem_range] at hx
    obtain ⟨k, hk, rfl⟩ := hx
    rw [List.mem_toFinset]
    exact hc (k + 2) (by omega) (by omega)
  have hcard := Finset.card_le_card hsub
  rw [Finset.card_image_of_injective _ hinj, Finset.card_range] at hcard
  have := folder.toFinset_card_le
  omega

theorem probeLoop_spec (folder : List String) (base : String) :
    ∀ fuel i, (∃ j, i ≤ j ∧ j ≤ i + fuel ∧ probeName base j ∉ folder) →
      ∃ m, i ≤ m ∧ probeLoop folder base fuel i = probeName base m ∧
        probeName base m ∉ folder ∧
        ∀ j, i ≤ j → j < m → probeName base j ∈ folder := by
  intro fuel
  induction fuel with
  | zero =>
    rintro i ⟨j, hij, hji, hfree⟩
    have hj : j = i := by omega
    subst hj
    exact ⟨j, le_rfl, rfl, hfree, fun j' h1 h2 => absurd h1 (by omega)⟩
  | succ f ih =>
    rintro i ⟨j, hij, hji, hfree⟩
    by_cases hmem : probeName base i ∈ folder
    · have hji' : i + 1 ≤ j := by
        rcases Nat.eq_or_lt_of_le hij with heq | hlt
        · exact absurd (heq ▸ hmem) hfree
        · omega
      obtain ⟨m, him, heq, hfreem, hall⟩ := ih (i + 1) ⟨j, hji', by omega, hfree⟩
      refine ⟨m, by omega, ?_, hfreem, ?_⟩
      · simpa [probeLoop, hmem] using heq
      · intro j' h1 h2
        rcases Nat.eq_or_lt_of_le h1 with heq' | hlt'
        · exact heq' ▸ hmem
        · exact hall j' (by omega) h2
    · exact ⟨i, le_rfl, by simp [probeLoop, hmem], hmem,
        fun j' h1 h2 => absurd h1 (by omega)⟩

/-- C6: `make_unique_txt_path` returns `base ++ ".txt"` when that name is
unused; otherwise it returns the first unused probe `base ++ " i.txt"` for
`i = 2, 3, ...` (all smaller probes being used); the returned name never
names an existing file, so no existing transcript is overwritten. -/
theorem C6_make_unique_path (folder : List String) (base : String) :
    ((base ++ ".txt") ∉ folder → make_unique_txt_path folder base = base ++ ".txt") ∧
    ((base ++ ".txt") ∈ folder →
      ∃ m, 2 ≤ m ∧ make_unique_txt_path folder base = probeName base m ∧
        probeName base m ∉ folder ∧
        ∀ j, 2 ≤ j → j < m → probeName base j ∈ folder) ∧
    make_unique_txt_path folder base ∉ folder := by
  have key : (base ++ ".txt") ∈ folder →
      ∃ m, 2 ≤ m ∧ make_unique_txt_path folder base = probeName base m ∧
        probeName base m ∉ folder ∧
        ∀ j, 2 ≤ j → j < m → probeName base j ∈ folder := by
    intro hmem
    obtain ⟨j, h2, hle, hfree⟩ := exists_free_probe folder base
    obtain ⟨m, him, heq, hfreem, hall⟩ :=
      probeLoop_spec folder base (folder.length + 1) 2 ⟨j, h2, by omega, hfree⟩
    exact ⟨m, him, by simpa [make_unique_txt_path, hmem] using heq, hfreem, hall⟩
  refine ⟨fun h => by simp [make_unique_txt_path, h], key, ?_⟩
  by_cases hmem : (base ++ ".txt") ∈ folder
  · obtain ⟨m, _, heq, hfreem, _⟩ := key hmem
    rw [heq]; exact hfreem
  · rw [(by simp [make_unique_txt_path, hmem] :
      make_unique_txt_path folder base = base ++ ".txt")]
    exact hmem

/-- C6 witness: with `X.txt` and `X 2.txt` present, the function yields
`X 3.txt`, which does not name an existing file. -/
theorem C6_make_unique_path_witness :
    ("X" ++ ".txt") ∈ ["X.txt", "X 2.txt"] ∧
    make_unique_txt_path ["X.txt", "X 2.txt"] "X" = "X 3.txt" ∧
    make_unique_txt_path ["X.txt", "X 2.txt"] "X" ∉ ["X.txt", "X 2.txt"] := by
  exact ⟨by decide, by decide, (C6_make_unique_path ["X.txt", "X 2.txt"] "X").2.2⟩


/-! ### Helper lemmas: `pyStem` and the derived substitute path -/

theorem revDropToDot_spec :
    ∀ (l rest : List Char), revDropToDot l = some rest →
      ∃ pre, l = pre ++ '.' :: rest ∧ '.' ∉ pre := by
  intro l
  induction l with
  | nil => intro rest h; simp [revDropToDot] at h
  | cons c cs ih =>
    intro rest h
    by_cases hc : c = '.'
    · subst hc
      have h' : cs = rest := by
        have := h
        simp only [revDropToDot, if_pos rfl, Option.some.injEq] at this
        simpa using this
      subst h'
      exact ⟨[], rfl, by simp⟩
    · simp only [revDropToDot, if_neg hc] at h
      obtain ⟨pre, hpre, hnotin⟩ := ih rest h
      refine ⟨c :: pre, by simp [hpre], ?_⟩
      intro hmem
      rcases List.mem_cons.mp hmem with heq | hmem'
      · exact hc heq.symm
      · exact hnotin hmem'

theorem withSuffixCompressed_ne (s : String) : withSuffixCompressed s ≠ s := by
  intro heq
  have hdata : (pyStem s).data ++ ".compressed.m4a".data = s.data := by
    have h := congrArg String.data heq
    simpa [withSuffixCompressed, strData_append] using h
  have hself : (pyStem s).data = s.data → False := by
    intro hst
    rw [hst] at hdata
    have hlen := congrArg List.length hdata
    simp [List.length_append] at hlen
  rcases hrev : s.data.reverse with _ | ⟨c, rest0⟩
  · exact hself (by simp [pyStem, hrev])
  · by_cases hc : c = '.'
    · exact hself (by simp [pyStem, hrev, hc])
    · rcases hdot : revDropToDot s.data.reverse with _ | rest
      · exact hself (by simp [pyStem, hrev, hc, hrev ▸ hdot])
      · by_cases hrest : rest = []
        · exact hself (by simp [pyStem, hrev, hc, hrev ▸ hdot, hrest])
        · have hstem : (pyStem s).data = rest.reverse := by
            simp [pyStem, hrev, hc, hrev ▸ hdot, hrest]
          obtain ⟨pre, hsplit, hpre⟩ := revDropToDot_spec _ _ hdot
          have hs : s.data = rest.reverse ++ '.' :: pre.reverse := by
            have h2 := congrArg List.reverse hsplit
            simpa [List.reverse_append] using h2
          rw [hstem, hs] at hdata
          have hcancel : ".compressed.m4a".data = '.' :: pre.reverse :=
            List.append_cancel_left hdata
          have hlit : (".compressed.m4a".data : List Char) = '.' :: "compressed.m4a".data := by
            decide
          have htail : "compressed.m4a".data = pre.reverse := by
            have h3 : ('.' :: "compressed.m4a".data : List Char) = '.' :: pre.reverse :=
              hlit ▸ hcancel
            injection h3
          apply hpre
          have hmem : ('.' : Char) ∈ pre.reverse := by
            rw [← htail]; decide
          simpa using hmem

/-- C7: the size gate returns the input path unchanged with no side effect
when the size is at or below the limit; above the limit (and with the
transcoder succeeding) it first removes any stale copy of the substitute,
produces the substitute at the derived path (which differs from the input
path and is present exactly once afterwards), and returns that path. -/
theorem C7_size_gate (s : PState) (it : Item) (maxBytes : Nat) :
    (it.size ≤ maxBytes → maybe_compress_if_too_large s it maxBytes = (s, Res.ok it.name)) ∧
    (maxBytes < it.size → it.transcodeOk = true →
      maybe_compress_if_too_large s it maxBytes =
        ({ s with temps := s.temps.filter (fun q => q ≠ withSuffixCompressed it.name)
                    ++ [withSuffixCompressed it.name] },
         Res.ok (withSuffixCompressed it.name)) ∧
      withSuffixCompressed it.name ≠ it.name ∧
      ((maybe_compress_if_too_large s it maxBytes).1.temps.count
        (withSuffixCompressed it.name) = 1)) := by
  constructor
  · intro hle
    simp [maybe_compress_if_too_large, hle]
  · intro hgt hok
    have hle : ¬ it.size ≤ maxBytes := by omega
    have heq : maybe_compress_if_too_large s it maxBytes =
        ({ s with temps := s.temps.filter (fun q => q ≠ withSuffixCompressed it.name)
                    ++ [withSuffixCompressed it.name] },
         Res.ok (withSuffixCompressed it.name)) := by
      simp [maybe_compress_if_too_large, hle, hok]
    refine ⟨heq, withSuffixCompressed_ne it.name, ?_⟩
    rw [heq]
    show (s.temps.filter (fun q => q ≠ withSuffixCompressed it.name)
        ++ [withSuffixCompressed it.name]).count (withSuffixCompressed it.name) = 1
    rw [List.count_append]
    have hzero : (s.temps.filter (fun q => q ≠ withSuffixCompressed it.name)).count
        (withSuffixCompressed it.name) = 0 := by
      rw [List.count_eq_zero]
      intro hmem
      have h2 := (List.mem_filter.mp hmem).2
      simp at h2
    rw [hzero]
    simp

/-- C7 witness: a 3-byte file passes a 10-byte gate unchanged; a 30-byte
file is transcoded to the derived substitute path `a.compressed.m4a`,
present exactly once afterwards. -/
theorem C7_size_gate_witness :
    ((3 : Nat) ≤ 10 ∧
      maybe_compress_if_too_large initState
        { name := "a.m4a", size := 3, stamp := "s", now := "n",
          hashR := Res.ok "h", transcodeOk := true, transcribeR := Res.ok "t" } 10 =
        (initState, Res.ok "a.m4a")) ∧
    ((10 : Nat) < 30 ∧
      (maybe_compress_if_too_large initState
        { name := "a.m4a", size := 30, stamp := "s", now := "n",
          hashR := Res.ok "h", transcodeOk := true, transcribeR := Res.ok "t" } 10).2 =
        Res.ok "a.compressed.m4a" ∧
      (maybe_compress_if_too_large initState
        { name := "a.m4a", size := 30, stamp := "s", now := "n",
          hashR := Res.ok "h", transcodeOk := true, transcribeR := Res.ok "t" } 10).1.temps.count
        "a.compressed.m4a" = 1) := by
  have hw : withSuffixCompressed "a.m4a" = "a.compressed.m4a" := by decide
  constructor
  · exact ⟨by norm_num,
      (C7_size_gate initState
        { name := "a.m4a", size := 3, stamp := "s", now := "n",
          hashR := Res.ok "h", transcodeOk := true, transcribeR := Res.ok "t" } 10).1
        (by norm_num)⟩
  · have h := (C7_size_gate initState
      { name := "a.m4a", size := 30, stamp := "s", now := "n",
        hashR := Res.ok "h", transcodeOk := true, transcribeR := Res.ok "t" } 10).2
      (by norm_num) rfl
    refine ⟨by norm_num, ?_, ?_⟩
    · rw [h.1]
      simp [hw]
    · have h3 := h.2.2
      rwa [hw] at h3

/-! ### Helper lemmas: tolerant ledger parsing -/

theorem loadStep_eq_acc (decode : String → Option String) (acc : List String) (l : String)
    (h : pyStrip l = "" ∨ decode (pyStrip l) = none ∨ decode (pyStrip l) = some "") :
    loadStep decode acc l = acc := by
  unfold loadStep
  rcases h with h | h | h
  · rw [if_pos h]
  · by_cases h0 : pyStrip l = ""
    · rw [if_pos h0]
    · rw [if_neg h0, h]
  · by_cases h0 : pyStrip l = ""
    · rw [if_pos h0]
    · rw [if_neg h0, h]
      simp

theorem loadStep_good (decode : String → Option String) (acc : List String) (l h : String)
    (h0 : pyStrip l ≠ "") (hd : decode (pyStrip l) = some h) (hne : h ≠ "") :
    loadStep decode acc l = acc.insert h := by
  unfold loadStep
  rw [if_neg h0, hd]
  simp [hne]

theorem mem_loadStep (decode : String → Option String) (acc : List String)
    (l x : String) :
    x ∈ loadStep decode acc l ↔
      x ∈ acc ∨ (pyStrip l ≠ "" ∧ decode (pyStrip l) = some x ∧ x ≠ "") := by
  by_cases h0 : pyStrip l = ""
  · rw [loadStep_eq_acc decode acc l (Or.inl h0)]
    constructor
    · exact Or.inl
    · rintro (hx | ⟨hne', -, -⟩)
      · exact hx
      · exact absurd h0 hne'
  · cases hd : decode (pyStrip l) with
    | none =>
      rw [loadStep_eq_acc decode acc l (Or.inr (Or.inl hd))]
      constructor
      · exact Or.inl
      · rintro (hx | ⟨-, hsome, -⟩)
        · exact hx
        · cases hsome
    | some h =>
      by_cases hne : h = ""
      · subst hne
        rw [loadStep_eq_acc decode acc l (Or.inr (Or.inr hd))]
        constructor
        · exact Or.inl
        · rintro (hx | ⟨-, hsome, hxne⟩)
          · exact hx
          · injection hsome with hh
            exact absurd hh.symm hxne
      · rw [loadStep_good decode acc l h h0 hd hne, List.mem_insert_iff]
        constructor
        · rintro (rfl | hx)
          · exact Or.inr ⟨h0, rfl, hne⟩
          · exact Or.inl hx
        · rintro (hx | ⟨-, hsome, -⟩)
          · exact Or.inr hx
          · injection hsome with hh
            exact Or.inl hh.symm

theorem mem_loadFold (decode : String → Option String) :
    ∀ (lines : List String) (acc : List String) (x : String),
      x ∈ lines.foldl (loadStep decode) acc ↔
        x ∈ acc ∨ ∃ l ∈ lines, pyStrip l ≠ "" ∧ decode (pyStrip l) = some x ∧ x ≠ "" := by
  intro lines
  induction lines with
  | nil => simp
  | cons l ls ih =>
    intro acc x
    rw [List.foldl_cons, ih, mem_loadStep]
    constructor
    · rintro ((hx | hgood) | ⟨l', hl', hgood'⟩)
      · exact Or.inl hx
      · exact Or.inr ⟨l, by simp, hgood⟩
      · exact Or.inr ⟨l', by simp [hl'], hgood'⟩
    · rintro (hx | ⟨l', hl', hgood'⟩)
      · exact Or.inl (Or.inl hx)
      · rcases List.mem_cons.mp hl' with rfl | hl''
        · exact Or.inl (Or.inr hgood')
        · exact Or.inr ⟨l', hl'', hgood'⟩

/-- C8: `load_done_hashes` parses the ledger as independent line-delimited
records and returns exactly the hashes found in the well-formed ones; a
missing file yields the empty set, and removing a malformed (blank,
undecodable, or hash-less) line does not change the result, so no
malformed line makes the load fail. -/
theorem C8_load_tolerant (decode : String → Option String) (lines l1 l2 : List String)
    (bad : String) :
    (∀ x, x ∈ load_done_hashes decode (some lines) ↔
      ∃ l ∈ lines, pyStrip l ≠ "" ∧ decode (pyStrip l) = some x ∧ x ≠ "") ∧
    load_done_hashes decode none = [] ∧
    ((pyStrip bad = "" ∨ decode (pyStrip bad) = none ∨ decode (pyStrip bad) = some "") →
      load_done_hashes decode (some (l1 ++ bad :: l2)) =
        load_done_hashes decode (some (l1 ++ l2))) := by
  refine ⟨fun x => ?_, rfl, fun hbad => ?_⟩
  · rw [show load_done_hashes decode (some lines) = lines.foldl (loadStep decode) [] from rfl,
      mem_loadFold]
    simp
  · show (l1 ++ bad :: l2).foldl (loadStep decode) [] = (l1 ++ l2).foldl (loadStep decode) []
    rw [List.foldl_append, List.foldl_append, List.foldl_cons,
      loadStep_eq_acc decode _ bad hbad]

/-- C8 witness: a ledger with one well-formed line, one undecodable line and
one blank line loads to exactly the one hash, and dropping the undecodable
line changes nothing. -/
theorem C8_load_tolerant_witness :
    ((fun l => if l = "rec" then some "abc" else none) (pyStrip "junk") = none ∧
      load_done_hashes (fun l => if l = "rec" then some "abc" else none)
        (some (["rec"] ++ "junk" :: [" "])) =
      load_done_hashes (fun l => if l = "rec" then some "abc" else none)
        (some (["rec"] ++ [" "]))) ∧
    ("abc" ∈ load_done_hashes (fun l => if l = "rec" then some "abc" else none)
        (some ["rec", "junk", " "])) := by
  constructor
  · refine ⟨by decide, ?_⟩
    exact (C8_load_tolerant (fun l => if l = "rec" then some "abc" else none)
      ["rec"] ["rec"] [" "] "junk").2.2 (Or.inr (Or.inl (by decide)))
  · exact ((C8_load_tolerant (fun l => if l = "rec" then some "abc" else none)
      ["rec", "junk", " "] [] [] "").1 "abc").mpr
      ⟨"rec", by decide, by decide, by decide, by decide⟩

/-! ### Helper lemmas: the shapes of one loop iteration -/

theorem processItem_hashErr (cfg : Config) (s : PState) (it : Item) (e : String)
    (he : it.hashR = Res.err e) :
    processItem cfg s it = failItem s it "hash_error" e := by
  simp [processItem, he]

theorem processItem_skip (cfg : Config) (s : PState) (it : Item) (h : String)
    (hok : it.hashR = Res.ok h) (hmem : h ∈ s.done) :
    processItem cfg s it =
      (if cfg.moveSkipped = true then
        { s with skipped := s.skipped + 1, archive := setAssoc s.archive it.name h }
       else { s with skipped := s.skipped + 1 }) := by
  cases hms : cfg.moveSkipped <;> simp [processItem, hok, hmem, hms]

theorem processItem_attempt (cfg : Config) (s : PState) (it : Item) (h : String)
    (hok : it.hashR = Res.ok h) (hmem : h ∉ s.done) :
    processItem cfg s it = attemptItem cfg s it h := by
  simp [processItem, hok, hmem]

theorem attemptItem_small_ok (cfg : Config) (s : PState) (it : Item) (h text : String)
    (hsz : ¬ cfg.maxBytes < it.size) (ht : it.transcribeR = Res.ok text) :
    attemptItem cfg s it h =
      commitSuccess cfg { s with calls := s.calls + 1 } it h (txtNameFor s it) text := by
  simp [attemptItem, hsz, ht]

theorem attemptItem_small_err (cfg : Config) (s : PState) (it : Item) (h e : String)
    (hsz : ¬ cfg.maxBytes < it.size) (ht : it.transcribeR = Res.err e) :
    attemptItem cfg s it h =
      failItem { s with calls := s.calls + 1 } it "transcribe_error" e := by
  simp [attemptItem, hsz, ht]

theorem attemptItem_big_ok (cfg : Config) (s : PState) (it : Item) (h text : String)
    (hsz : cfg.maxBytes < it.size) (hok : it.transcodeOk = true)
    (ht : it.transcribeR = Res.ok text) :
    attemptItem cfg s it h =
      unlinkTemp
        (commitSuccess cfg
          { s with temps := s.temps.filter (fun q => q ≠ withSuffixCompressed it.name)
                     ++ [withSuffixCompressed it.name],
                   calls := s.calls + 1 } it h (txtNameFor s it) text)
        (withSuffixCompressed it.name) := by
  have hle : ¬ it.size ≤ cfg.maxBytes := by omega
  have hne := withSuffixCompressed_ne it.name
  simp [attemptItem, hsz, maybe_compress_if_too_large, hle, hok, ht, hne]

theorem attemptItem_big_err (cfg : Config) (s : PState) (it : Item) (h e : String)
    (hsz : cfg.maxBytes < it.size) (hok : it.transcodeOk = true)
    (ht : it.transcribeR = Res.err e) :
    attemptItem cfg s it h =
      unlinkTemp
        (failItem
          { s with temps := s.temps.filter (fun q => q ≠ withSuffixCompressed it.name)
                     ++ [withSuffixCompressed it.name],
                   calls := s.calls + 1 } it "transcribe_error" e)
        (withSuffixCompressed it.name) := by
  have hle : ¬ it.size ≤ cfg.maxBytes := by omega
  have hne := withSuffixCompressed_ne it.name
  simp [attemptItem, hsz, maybe_compress_if_too_large, hle, hok, ht, hne]

theorem attemptItem_transcodeFail (cfg : Config) (s : PState) (it : Item) (h : String)
    (hsz : cfg.maxBytes < it.size) (hok : it.transcodeOk = false) :
    attemptItem cfg s it h =
      failItem { s with temps := s.temps.filter (fun q => q ≠ withSuffixCompressed it.name) }
        it "transcribe_error" "ffmpeg failed" := by
  have hle : ¬ it.size ≤ cfg.maxBytes := by omega
  simp [attemptItem, hsz, maybe_compress_if_too_large, hle, hok]

/-! ### Helper lemmas: field projections of one loop iteration -/

theorem processItem_hashErr_proj (cfg : Config) (s : PState) (it : Item) (e : String)
    (he : it.hashR = Res.err e) :
    (processItem cfg s it).ledger = s.ledger ∧
    (processItem cfg s it).txtFiles = s.txtFiles ∧
    (processItem cfg s it).done = s.done ∧
    (processItem cfg s it).ok = s.ok ∧
    (processItem cfg s it).skipped = s.skipped ∧
    (processItem cfg s it).failed = s.failed + 1 ∧
    (processItem cfg s it).calls = s.calls ∧
    (processItem cfg s it).errlog = s.errlog ++ [errLine it.now it.name "hash_error" e] ∧
    (processItem cfg s it).txtNames = s.txtNames ∧
    (processItem cfg s it).archive = s.archive := by
  rw [processItem_hashErr cfg s it e he]
  simp [failItem]

theorem processItem_skip_proj (cfg : Config) (s : PState) (it : Item) (h : String)
    (hok : it.hashR = Res.ok h) (hmem : h ∈ s.done) :
    (processItem cfg s it).ledger = s.ledger ∧
    (processItem cfg s it).txtFiles = s.txtFiles ∧
    (processItem cfg s it).done = s.done ∧
    (processItem cfg s it).ok = s.ok ∧
    (processItem cfg s it).skipped = s.skipped + 1 ∧
    (processItem cfg s it).failed = s.failed ∧
    (processItem cfg s it).calls = s.calls ∧
    (processItem cfg s it).errlog = s.errlog ∧
    (processItem cfg s it).txtNames = s.txtNames ∧
    (processItem cfg s it).archive =
      (if cfg.moveSkipped = true then setAssoc s.archive it.name h else s.archive) := by
  rw [processItem_skip cfg s it h hok hmem]
  cases hms : cfg.moveSkipped <;> simp [hms]

theorem processItem_success_proj (cfg : Config) (s : PState) (it : Item) (h text : String)
    (hok : it.hashR = Res.ok h) (hfresh : h ∉ s.done)
    (hgate : cfg.maxBytes < it.size → it.transcodeOk = true)
    (ht : it.transcribeR = Res.ok text) :
    (processItem cfg s it).ledger = s.ledger ++ [mkRecord cfg it h (txtNameFor s it)] ∧
    (processItem cfg s it).txtFiles = s.txtFiles ++
      [(txtNameFor s it, transcriptContent it.stamp it.name h cfg.model (langHint cfg) text)] ∧
    (processItem cfg s it).done = s.done.insert h ∧
    (processItem cfg s it).ok = s.ok + 1 ∧
    (processItem cfg s it).skipped = s.skipped ∧
    (processItem cfg s it).failed = s.failed ∧
    (processItem cfg s it).calls = s.calls + 1 ∧
    (processItem cfg s it).errlog = s.errlog ∧
    (processItem cfg s it).txtNames = s.txtNames ++ [txtNameFor s it] ∧
    (processItem cfg s it).archive =
      (if cfg.moveAudio = true then setAssoc s.archive it.name h else s.archive) := by
  rw [processItem_attempt cfg s it h hok hfresh]
  by_cases hsz : cfg.maxBytes < it.size
  · rw [attemptItem_big_ok cfg s it h text hsz (hgate hsz) ht]
    cases hma : cfg.moveAudio <;> simp [unlinkTemp, commitSuccess, hma]
  · rw [attemptItem_small_ok cfg s it h text hsz ht]
    cases hma : cfg.moveAudio <;> simp [commitSuccess, hma]

theorem processItem_transcribeFail_proj (cfg : Config) (s : PState) (it : Item) (h e : String)
    (hok : it.hashR = Res.ok h) (hfresh : h ∉ s.done)
    (hgate : cfg.maxBytes < it.size → it.transcodeOk = true)
    (ht : it.transcribeR = Res.err e) :
    (processItem cfg s it).ledger = s.ledger ∧
    (processItem cfg s it).txtFiles = s.txtFiles ∧
    (processItem cfg s it).done = s.done ∧
    (processItem cfg s it).ok = s.ok ∧
    (processItem cfg s it).skipped = s.skipped ∧
    (processItem cfg s it).failed = s.failed + 1 ∧
    (processItem cfg s it).calls = s.calls + 1 ∧
    (processItem cfg s it).errlog = s.errlog ++ [errLine it.now it.name "transcribe_error" e] ∧
    (processItem cfg s it).txtNames = s.txtNames ∧
    (processItem cfg s it).archive = s.archive := by
  rw [processItem_attempt cfg s it h hok hfresh]
  by_cases hsz : cfg.maxBytes < it.size
  · rw [attemptItem_big_err cfg s it h e hsz (hgate hsz) ht]
    simp [unlinkTemp, failItem]
  · rw [attemptItem_small_err cfg s it h e hsz ht]
    simp [failItem]

theorem processItem_transcodeFail_proj (cfg : Config) (s : PState) (it : Item) (h : String)
    (hok : it.hashR = Res.ok h) (hfresh : h ∉ s.done)
    (hsz : cfg.maxBytes < it.size) (hko : it.transcodeOk = false) :
    (processItem cfg s it).ledger = s.ledger ∧
    (processItem cfg s it).txtFiles = s.txtFiles ∧
    (processItem cfg s it).done = s.done ∧
    (processItem cfg s it).ok = s.ok ∧
    (processItem cfg s it).skipped = s.skipped ∧
    (processItem cfg s it).failed = s.failed + 1 ∧
    (processItem cfg s it).calls = s.calls ∧
    (processItem cfg s it).errlog =
      s.errlog ++ [errLine it.now it.name "transcribe_error" "ffmpeg failed"] ∧
    (processItem cfg s it).txtNames = s.txtNames ∧
    (processItem cfg s it).archive = s.archive := by
  rw [processItem_attempt cfg s it h hok hfresh, attemptItem_transcodeFail cfg s it h hsz hko]
  simp [failItem]

theorem temps_cleanup_subset (l : List String) (c : String) :
    ((l.filter (fun q => q ≠ c) ++ [c]).filter (fun q => q ≠ c)) ⊆ l := by
  intro x hx
  have hm := List.mem_filter.mp hx
  have hne : x ≠ c := by
    have := hm.2
    simpa using this
  rcases List.mem_append.mp hm.1 with hmem' | hmem'
  · exact (List.filter_subset' _) hmem'
  · exact absurd (List.mem_singleton.mp hmem') hne

theorem processItem_temps_subset (cfg : Config) (s : PState) (it : Item) :
    (processItem cfg s it).temps ⊆ s.temps := by
  cases hh : it.hashR with
  | err e =>
    rw [processItem_hashErr cfg s it e hh]
    simp [failItem]
  | ok h =>
    by_cases hmem : h ∈ s.done
    · rw [processItem_skip cfg s it h hh hmem]
      cases hms : cfg.moveSkipped <;> simp [hms]
    · rw [processItem_attempt cfg s it h hh hmem]
      by_cases hsz : cfg.maxBytes < it.size
      · cases hko : it.transcodeOk with
        | false =>
          rw [attemptItem_transcodeFail cfg s it h hsz hko]
          simp only [failItem]
          exact List.filter_subset' _
        | true =>
          cases ht : it.transcribeR with
          | ok text =>
            rw [attemptItem_big_ok cfg s it h text hsz hko ht]
            cases hma : cfg.moveAudio <;>
              · simp only [unlinkTemp, commitSuccess, hma]
                simp only [Bool.false_eq_true, if_false, if_true]
                exact temps_cleanup_subset s.temps (withSuffixCompressed it.name)
          | err e =>
            rw [attemptItem_big_err cfg s it h e hsz hko ht]
            simp only [unlinkTemp, failItem]
            exact temps_cleanup_subset s.temps (withSuffixCompressed it.name)
      · cases ht : it.transcribeR with
        | ok text =>
          rw [attemptItem_small_ok cfg s it h text hsz ht]
          cases hma : cfg.moveAudio <;> simp [commitSuccess, hma]
        | err e =>
          rw [attemptItem_small_err cfg s it h e hsz ht]
          simp [failItem]

/-! ### Claims C2, C3, C4 -/

theorem strData_empty : ("" : String).data = [] := rfl

theorem strData_nl : ("\n" : String).data = ['\n'] := rfl

/-- C2 counterexample: at a concrete input the artifact has no blank line
between the five header lines and the body; the sixth line is the body
itself, so the claimed format (header, blank line, body) is refuted. -/
theorem C2_no_blank_line :
    transcriptContent "20240101 120000" "a.m4a" "ff00" "whisper-1" "pt" "hello" ≠
      "DateStamp 20240101 120000\nAudioFile a.m4a\nSha256 ff00\nModel whisper-1\nLanguageHint pt\n\nhello\n" ∧
    transcriptContent "20240101 120000" "a.m4a" "ff00" "whisper-1" "pt" "hello" =
      "DateStamp 20240101 120000\nAudioFile a.m4a\nSha256 ff00\nModel whisper-1\nLanguageHint pt\nhello\n" :=
  ⟨by decide, by decide⟩

/-- C2 (amended): the transcript artifact consists of the five header lines
(DateStamp, AudioFile, Sha256, Model, LanguageHint), each terminated by a
newline, followed immediately by the raw transcript body (no blank
separator line), and is newline-terminated; on success the pipeline writes
exactly this artifact at the unique path. -/
theorem C2_transcript_format :
    (∀ stamp name hash model lang text : String,
      (transcriptContent stamp name hash model lang text).data =
        ("DateStamp " ++ stamp ++ "\n" ++ "AudioFile " ++ name ++ "\n" ++ "Sha256 " ++ hash ++
         "\n" ++ "Model " ++ model ++ "\n" ++ "LanguageHint " ++ lang ++ "\n").data ++
        text.data ++ ['\n']) ∧
    (∀ (cfg : Config) (s : PState) (it : Item) (h text : String),
      it.hashR = Res.ok h → h ∉ s.done → (cfg.maxBytes < it.size → it.transcodeOk = true) →
      it.transcribeR = Res.ok text →
      (processItem cfg s it).txtFiles = s.txtFiles ++
        [(txtNameFor s it, transcriptContent it.stamp it.name h cfg.model (langHint cfg) text)]) := by
  constructor
  · intro stamp name hash model lang text
    simp [transcriptContent, joinNL, strData_append, strData_empty, strData_nl,
      List.append_assoc]
  · intro cfg s it h text hok hfresh hgate ht
    exact (processItem_success_proj cfg s it h text hok hfresh hgate ht).2.1

/-- C2 witness: the pipeline-write conjunct applied to a concrete item. -/
theorem C2_transcript_format_witness :
    (({ name := "a.m4a", size := 3, stamp := "20240101 120000", now := "n",
        hashR := Res.ok "ff00", transcodeOk := true,
        transcribeR := Res.ok "hello" } : Item).hashR = Res.ok "ff00" ∧
      "ff00" ∉ initState.done) ∧
    (processItem
      { model := "whisper-1", language := some "pt", moveAudio := true,
        moveSkipped := true, maxBytes := 25 } initState
      { name := "a.m4a", size := 3, stamp := "20240101 120000", now := "n",
        hashR := Res.ok "ff00", transcodeOk := true,
        transcribeR := Res.ok "hello" }).txtFiles =
      initState.txtFiles ++
        [(txtNameFor initState
            { name := "a.m4a", size := 3, stamp := "20240101 120000", now := "n",
              hashR := Res.ok "ff00", transcodeOk := true,
              transcribeR := Res.ok "hello" },
          transcriptContent "20240101 120000" "a.m4a" "ff00" "whisper-1" "pt" "hello")] := by
  refine ⟨⟨rfl, by decide⟩, ?_⟩
  exact C2_transcript_format.2
    { model := "whisper-1", language := some "pt", moveAudio := true,
      moveSkipped := true, maxBytes := 25 } initState
    { name := "a.m4a", size := 3, stamp := "20240101 120000", now := "n",
      hashR := Res.ok "ff00", transcodeOk := true, transcribeR := Res.ok "hello" }
    "ff00" "hello" rfl (by decide) (fun hcl => by norm_num at hcl) rfl

/-- C3: substitute audio files never outlive the item that created them: a
single loop iteration never leaves a new substitute on disk (on success or
on any failure path), a substitute absent beforehand is absent afterwards,
and a run started with no substitutes on disk ends with none. -/
theorem C3_substitute_cleanup :
    (∀ (cfg : Config) (s : PState) (it : Item), (processItem cfg s it).temps ⊆ s.temps) ∧
    (∀ (cfg : Config) (s : PState) (it : Item),
      withSuffixCompressed it.name ∉ s.temps →
        withSuffixCompressed it.name ∉ (processItem cfg s it).temps) ∧
    (∀ (cfg : Config) (s : PState) (items : List Item),
      s.temps = [] → (runPipeline cfg s items).temps = []) := by
  have hrun : ∀ (cfg : Config) (items : List Item) (s : PState),
      s.temps = [] → (runPipeline cfg s items).temps = [] := by
    intro cfg items
    induction items with
    | nil => intro s hs; exact hs
    | cons it its ih =>
      intro s hs
      show (runPipeline cfg (processItem cfg s it) its).temps = []
      apply ih
      have hsub := processItem_temps_subset cfg s it
      rw [hs] at hsub
      exact List.eq_nil_iff_forall_not_mem.mpr fun x hx => (List.mem_nil_iff x).mp (hsub hx)
  refine ⟨processItem_temps_subset, ?_, fun cfg s items => hrun cfg items s⟩
  intro cfg s it habs hmem
  exact habs (processItem_temps_subset cfg s it hmem)

/-- C3 witness: a run over one oversized item (which creates and must clean
up a substitute) ends with no substitute on disk. -/
theorem C3_substitute_cleanup_witness :
    initState.temps = [] ∧
    (runPipeline
      { model := "whisper-1", language := some "pt", moveAudio := true,
        moveSkipped := true, maxBytes := 25 } initState
      [{ name := "talk.wav", size := 40, stamp := "20240101 120000", now := "n",
         hashR := Res.ok "cafe", transcodeOk := true,
         transcribeR := Res.ok "body" }]).temps = [] :=
  ⟨rfl, C3_substitute_cleanup.2.2
    { model := "whisper-1", language := some "pt", moveAudio := true,
      moveSkipped := true, maxBytes := 25 } initState
    [{ name := "talk.wav", size := 40, stamp := "20240101 120000", now := "n",
       hashR := Res.ok "cafe", transcodeOk := true, transcribeR := Res.ok "body" }] rfl⟩

/-- C4: the process exit status is 0 exactly when the failure tally is 0
(any failure yields status 1); each item raises the tally by at most one;
and the run only ever extends the ledger and the set of written
transcripts, so committed work is retained. -/
theorem C4_exit_status (cfg : Config) (s : PState) (items : List Item) :
    (mainExit (runPipeline cfg s items) = 0 ↔ (runPipeline cfg s items).failed = 0) ∧
    (∀ (s' : PState) (it : Item),
      (processItem cfg s' it).failed = s'.failed ∨
      (processItem cfg s' it).failed = s'.failed + 1) ∧
    (∃ t, (runPipeline cfg s items).ledger = s.ledger ++ t) ∧
    (∃ t, (runPipeline cfg s items).txtFiles = s.txtFiles ++ t) := by
  have hstep : ∀ (s' : PState) (it : Item),
      ((processItem cfg s' it).failed = s'.failed ∨
        (processItem cfg s' it).failed = s'.failed + 1) ∧
      (∃ t, (processItem cfg s' it).ledger = s'.ledger ++ t) ∧
      (∃ t, (processItem cfg s' it).txtFiles = s'.txtFiles ++ t) := by
    intro s' it
    cases hh : it.hashR with
    | err e =>
      obtain ⟨hl, hf, -, -, -, hfl, -, -, -, -⟩ := processItem_hashErr_proj cfg s' it e hh
      exact ⟨Or.inr hfl, ⟨[], by simp [hl]⟩, ⟨[], by simp [hf]⟩⟩
    | ok h =>
      by_cases hmem : h ∈ s'.done
      · obtain ⟨hl, hf, -, -, -, hfl, -, -, -, -⟩ := processItem_skip_proj cfg s' it h hh hmem
        exact ⟨Or.inl hfl, ⟨[], by simp [hl]⟩, ⟨[], by simp [hf]⟩⟩
      · by_cases hsz : cfg.maxBytes < it.size
        · cases hko : it.transcodeOk with
          | false =>
            obtain ⟨hl, hf, -, -, -, hfl, -, -, -, -⟩ :=
              processItem_transcodeFail_proj cfg s' it h hh hmem hsz hko
            exact ⟨Or.inr hfl, ⟨[], by simp [hl]⟩, ⟨[], by simp [hf]⟩⟩
          | true =>
            cases ht : it.transcribeR with
            | ok text =>
              obtain ⟨hl, hf, -, -, -, hfl, -, -, -, -⟩ :=
                processItem_success_proj cfg s' it h text hh hmem (fun _ => hko) ht
              exact ⟨Or.inl hfl, ⟨_, hl⟩, ⟨_, hf⟩⟩
            | err e =>
              obtain ⟨hl, hf, -, -, -, hfl, -, -, -, -⟩ :=
                processItem_transcribeFail_proj cfg s' it h e hh hmem (fun _ => hko) ht
              exact ⟨Or.inr hfl, ⟨[], by simp [hl]⟩, ⟨[], by simp [hf]⟩⟩
        · cases ht : it.transcribeR with
          | ok text =>
            obtain ⟨hl, hf, -, -, -, hfl, -, -, -, -⟩ :=
              processItem_success_proj cfg s' it h text hh hmem
                (fun hcl => absurd hcl hsz) ht
            exact ⟨Or.inl hfl, ⟨_, hl⟩, ⟨_, hf⟩⟩
          | err e =>
            obtain ⟨hl, hf, -, -, -, hfl, -, -, -, -⟩ :=
              processItem_transcribeFail_proj cfg s' it h e hh hmem
                (fun hcl => absurd hcl hsz) ht
            exact ⟨Or.inr hfl, ⟨[], by simp [hl]⟩, ⟨[], by simp [hf]⟩⟩
  have hext : ∀ (items' : List Item) (s' : PState),
      (∃ t, (runPipeline cfg s' items').ledger = s'.ledger ++ t) ∧
      (∃ t, (runPipeline cfg s' items').txtFiles = s'.txtFiles ++ t) := by
    intro items'
    induction items' with
    | nil => intro s'; exact ⟨⟨[], by simp [runPipeline]⟩, ⟨[], by simp [runPipeline]⟩⟩
    | cons it its ih =>
      intro s'
      obtain ⟨⟨t1, ht1⟩, ⟨t2, ht2⟩⟩ := ih (processItem cfg s' it)
      obtain ⟨-, ⟨u1, hu1⟩, ⟨u2, hu2⟩⟩ := hstep s' it
      refine ⟨⟨u1 ++ t1, ?_⟩, ⟨u2 ++ t2, ?_⟩⟩
      · show (runPipeline cfg (processItem cfg s' it) its).ledger = s'.ledger ++ (u1 ++ t1)
        rw [ht1, hu1, List.append_assoc]
      · show (runPipeline cfg (processItem cfg s' it) its).txtFiles = s'.txtFiles ++ (u2 ++ t2)
        rw [ht2, hu2, List.append_assoc]
  refine ⟨?_, fun s' it => (hstep s' it).1, (hext items s).1, (hext items s).2⟩
  unfold mainExit
  by_cases hf : (runPipeline cfg s items).failed = 0 <;> simp [hf]

/-! ### Helper lemmas: `safe_stem` -/

theorem mem_of_headQ {l : List Char} {x : Char} (h : l.head? = some x) : x ∈ l := by
  cases l with
  | nil => cases h
  | cons a l0 =>
    injection h with h'
    rw [← h']
    simp

theorem mem_of_getLastQ {l : List Char} {x : Char} (h : l.getLast? = some x) : x ∈ l := by
  have hx : x ∈ l.getLast? := Option.mem_def.mpr h
  obtain ⟨hne, heq⟩ := List.mem_getLast?_eq_getLast hx
  rw [heq]
  exact List.getLast_mem hne

theorem headQ_append_of_ne_nil (w x : List Char) (hw : w ≠ []) :
    (w ++ x).head? = w.head? := by
  cases w with
  | nil => exact absurd rfl hw
  | cons a w0 => rfl

theorem filter_id_of_all (p : Char → Bool) :
    ∀ (l : List Char), (∀ c ∈ l, p c = true) → l.filter p = l := by
  intro l
  induction l with
  | nil => intro; rfl
  | cons a l0 ih =>
    intro hl
    rw [List.filter_cons, if_pos (hl a (by simp)), ih fun c hc => hl c (by simp [hc])]

theorem replBad_not_bad (d : Char) : replBad d ∉ badChars := by
  unfold replBad
  by_cases h : d ∈ badChars
  · rw [if_pos h]; decide
  · rw [if_neg h]; exact h

theorem pysplitAux_good : ∀ (l acc : List Char), (∀ c ∈ acc, pyIsSpace c = false) →
    ∀ w ∈ pysplitAux l acc, w ≠ [] ∧ ∀ c ∈ w, pyIsSpace c = false := by
  intro l
  induction l with
  | nil =>
    intro acc hacc w hw
    by_cases h : acc = []
    · simp [pysplitAux, h] at hw
    · simp only [pysplitAux, if_neg h, List.mem_singleton] at hw
      subst hw
      refine ⟨by simpa using h, fun c hc => hacc c (by simpa using hc)⟩
  | cons c cs ih =>
    intro acc hacc w hw
    by_cases hsp : pyIsSpace c
    · by_cases h : acc = []
      · rw [show pysplitAux (c :: cs) acc =
            (if pyIsSpace c then (if acc = [] then pysplitAux cs []
              else acc.reverse :: pysplitAux cs []) else pysplitAux cs (c :: acc)) from rfl,
          if_pos hsp, if_pos h] at hw
        exact ih [] (by simp) w hw
      · rw [show pysplitAux (c :: cs) acc =
            (if pyIsSpace c then (if acc = [] then pysplitAux cs []
              else acc.reverse :: pysplitAux cs []) else pysplitAux cs (c :: acc)) from rfl,
          if_pos hsp, if_neg h] at hw
        rcases List.mem_cons.mp hw with rfl | hw'
        · refine ⟨by simpa using h, fun c' hc' => hacc c' (by simpa using hc')⟩
        · exact ih [] (by simp) w hw'
    · rw [show pysplitAux (c :: cs) acc =
          (if pyIsSpace c then (if acc = [] then pysplitAux cs []
            else acc.reverse :: pysplitAux cs []) else pysplitAux cs (c :: acc)) from rfl,
        if_neg hsp] at hw
      refine ih (c :: acc) ?_ w hw
      intro c' hc'
      rcases List.mem_cons.mp hc' with rfl | hc''
      · exact Bool.of_not_eq_true hsp
      · exact hacc c' hc''

theorem pysplitAux_chars : ∀ (l acc : List Char), ∀ w ∈ pysplitAux l acc,
    ∀ c ∈ w, c ∈ acc ∨ c ∈ l := by
  intro l
  induction l with
  | nil =>
    intro acc w hw c hc
    by_cases h : acc = []
    · simp [pysplitAux, h] at hw
    · rw [show pysplitAux [] acc = (if acc = [] then [] else [acc.reverse]) from rfl,
        if_neg h] at hw
      rcases List.mem_singleton.mp hw with rfl
      exact Or.inl (by simpa using hc)
  | cons a cs ih =>
    intro acc w hw c hc
    by_cases hsp : pyIsSpace a
    · by_cases h : acc = []
      · rw [show pysplitAux (a :: cs) acc =
            (if pyIsSpace a then (if acc = [] then pysplitAux cs []
              else acc.reverse :: pysplitAux cs []) else pysplitAux cs (a :: acc)) from rfl,
          if_pos hsp, if_pos h] at hw
        rcases ih [] w hw c hc with hin | hin
        · simp at hin
        · exact Or.inr (by simp [hin])
      · rw [show pysplitAux (a :: cs) acc =
            (if pyIsSpace a then (if acc = [] then pysplitAux cs []
              else acc.reverse :: pysplitAux cs []) else pysplitAux cs (a :: acc)) from rfl,
          if_pos hsp, if_neg h] at hw
        rcases List.mem_cons.mp hw with rfl | hw'
        · exact Or.inl (by simpa using hc)
        · rcases ih [] w hw' c hc with hin | hin
          · simp at hin
          · exact Or.inr (by simp [hin])
    · rw [show pysplitAux (a :: cs) acc =
          (if pyIsSpace a then (if acc = [] then pysplitAux cs []
            else acc.reverse :: pysplitAux cs []) else pysplitAux cs (a :: acc)) from rfl,
        if_neg hsp] at hw
      rcases ih (a :: acc) w hw c hc with hin | hin
      · rcases List.mem_cons.mp hin with rfl | hin'
        · exact Or.inr (by simp)
        · exact Or.inl hin'
      · exact Or.inr (by simp [hin])

theorem mem_joinWords : ∀ (ws : List (List Char)) (c : Char), c ∈ joinWords ws →
    c = ' ' ∨ ∃ w ∈ ws, c ∈ w := by
  intro ws
  induction ws with
  | nil => intro c hc; simp [joinWords] at hc
  | cons w ws ih =>
    intro c hc
    cases ws with
    | nil => exact Or.inr ⟨w, by simp, by simpa [joinWords] using hc⟩
    | cons w' ws' =>
      rw [show joinWords (w :: w' :: ws') = w ++ ' ' :: joinWords (w' :: ws') from rfl] at hc
      rcases List.mem_append.mp hc with h | h
      · exact Or.inr ⟨w, by simp, h⟩
      · rcases List.mem_cons.mp h with h | h
        · exact Or.inl h
        · rcases ih c h with h | ⟨w'', hw'', hc''⟩
          · exact Or.inl h
          · exact Or.inr ⟨w'', by simp [hw''], hc''⟩

theorem chainR_of_no_space : ∀ (w : List Char), (∀ c ∈ w, pyIsSpace c = false) →
    List.Chain' (fun a b : Char => ¬(a = ' ' ∧ b = ' ')) w := by
  intro w
  induction w with
  | nil => intro; simp
  | cons a l ih =>
    intro hw
    rw [List.chain'_cons']
    refine ⟨fun y _ => ?_, ih fun c hc => hw c (by simp [hc])⟩
    rintro ⟨ha, -⟩
    have h := hw a (by simp)
    rw [ha] at h
    exact absurd h (by decide)

theorem joinWords_ne_nil (w : List Char) (ws : List (List Char)) (hw : w ≠ []) :
    joinWords (w :: ws) ≠ [] := by
  cases ws with
  | nil => simpa [joinWords] using hw
  | cons w' ws' =>
    show w ++ ' ' :: joinWords (w' :: ws') ≠ []
    simp

theorem joinWords_props : ∀ ws : List (List Char),
    (∀ w ∈ ws, w ≠ [] ∧ ∀ c ∈ w, pyIsSpace c = false) →
    List.Chain' (fun a b : Char => ¬(a = ' ' ∧ b = ' ')) (joinWords ws) ∧
    (∀ c, (joinWords ws).head? = some c → pyIsSpace c = false) ∧
    (∀ c, (joinWords ws).getLast? = some c → pyIsSpace c = false) := by
  intro ws
  induction ws with
  | nil =>
    intro
    refine ⟨by simp [joinWords], ?_, ?_⟩ <;> intro c hc <;> simp [joinWords] at hc
  | cons w ws ih =>
    intro hgood
    have hw := hgood w (by simp)
    cases ws with
    | nil =>
      refine ⟨chainR_of_no_space w hw.2, ?_, ?_⟩
      · intro c hc; exact hw.2 c (mem_of_headQ hc)
      · intro c hc; exact hw.2 c (mem_of_getLastQ hc)
    | cons w' ws' =>
      have hrest := ih (fun u hu => hgood u (by simp [hu]))
      have hw' := hgood w' (by simp)
      have hjw : joinWords (w :: w' :: ws') = w ++ ' ' :: joinWords (w' :: ws') := rfl
      have hrestne : joinWords (w' :: ws') ≠ [] := joinWords_ne_nil w' ws' hw'.1
      refine ⟨?_, ?_, ?_⟩
      · rw [hjw, List.chain'_append]
        refine ⟨chainR_of_no_space w hw.2, ?_, ?_⟩
        · rw [List.chain'_cons']
          refine ⟨?_, hrest.1⟩
          intro y hy
          rintro ⟨-, hy'⟩
          have hns := hrest.2.1 y (Option.mem_def.mp hy)
          rw [hy'] at hns
          exact absurd hns (by decide)
        · intro x hx y _
          rintro ⟨hx', -⟩
          have hxm : x ∈ w := mem_of_getLastQ (Option.mem_def.mp hx)
          have hns := hw.2 x hxm
          rw [hx'] at hns
          exact absurd hns (by decide)
      · intro c hc
        rw [hjw, headQ_append_of_ne_nil w _ hw.1] at hc
        exact hw.2 c (mem_of_headQ hc)
      · intro c hc
        rw [hjw] at hc
        rw [show (w ++ ' ' :: joinWords (w' :: ws')) =
            (w ++ [' ']) ++ joinWords (w' :: ws') by simp] at hc
        rw [List.getLast?_append_of_ne_nil _ hrestne] at hc
        exact hrest.2.2 c hc

theorem joinWords_filter : ∀ ws : List (List Char),
    (∀ w ∈ ws, ∀ c ∈ w, pyIsSpace c = false) →
    (joinWords ws).filter (fun c => !(pyIsSpace c)) = ws.flatten := by
  intro ws
  induction ws with
  | nil => intro; rfl
  | cons w ws ih =>
    intro hgood
    have hw : w.filter (fun c => !(pyIsSpace c)) = w :=
      filter_id_of_all _ w (fun c hc => by simp [hgood w (by simp) c hc])
    cases ws with
    | nil =>
      rw [show joinWords [w] = w from rfl, hw]
      simp
    | cons w' ws' =>
      have hrest := ih (fun u hu => hgood u (by simp [hu]))
      rw [show joinWords (w :: w' :: ws') = w ++ ' ' :: joinWords (w' :: ws') from rfl,
        List.filter_append, hw, List.filter_cons]
      rw [show (!pyIsSpace ' ') = false from by decide]
      simp only [Bool.false_eq_true, if_false]
      rw [hrest]
      simp

theorem pysplitAux_flatten : ∀ (l acc : List Char),
    (pysplitAux l acc).flatten = acc.reverse ++ l.filter (fun c => !(pyIsSpace c)) := by
  intro l
  induction l with
  | nil =>
    intro acc
    by_cases h : acc = [] <;> simp [pysplitAux, h]
  | cons c cs ih =>
    intro acc
    by_cases hsp : pyIsSpace c
    · by_cases h : acc = []
      · rw [show pysplitAux (c :: cs) acc =
            (if pyIsSpace c then (if acc = [] then pysplitAux cs []
              else acc.reverse :: pysplitAux cs []) else pysplitAux cs (c :: acc)) from rfl,
          if_pos hsp, if_pos h, ih [], List.filter_cons]
        simp [h, hsp]
      · rw [show pysplitAux (c :: cs) acc =
            (if pyIsSpace c then (if acc = [] then pysplitAux cs []
              else acc.reverse :: pysplitAux cs []) else pysplitAux cs (c :: acc)) from rfl,
          if_pos hsp, if_neg h, List.flatten_cons, ih [], List.filter_cons]
        simp [hsp]
    · rw [show pysplitAux (c :: cs) acc =
          (if pyIsSpace c then (if acc = [] then pysplitAux cs []
            else acc.reverse :: pysplitAux cs []) else pysplitAux cs (c :: acc)) from rfl,
        if_neg hsp, ih (c :: acc), List.filter_cons]
      simp [hsp]

/-- C9: the sanitized stem replaces every filesystem-hostile character (the
`bad` list: separators, quotes, wildcards, smart quotes) by a space and
collapses whitespace: the result contains no bad character, its only
whitespace is single interior spaces (no two adjacent, none leading or
trailing), and its non-whitespace characters are exactly those of the
input after bad-character replacement, in order. -/
theorem C9_safe_stem (s : String) :
    (∀ c ∈ (safe_stem s).data, c ∉ badChars) ∧
    (∀ c ∈ (safe_stem s).data, pyIsSpace c = true → c = ' ') ∧
    (∀ c, (safe_stem s).data.head? = some c → pyIsSpace c = false) ∧
    (∀ c, (safe_stem s).data.getLast? = some c → pyIsSpace c = false) ∧
    List.Chain' (fun a b : Char => ¬(a = ' ' ∧ b = ' ')) (safe_stem s).data ∧
    (safe_stem s).data.filter (fun c => !(pyIsSpace c)) =
      (s.data.map replBad).filter (fun c => !(pyIsSpace c)) := by
  have hgood := pysplitAux_good (s.data.map replBad) [] (by simp)
  have hjp := joinWords_props (pysplitAux (s.data.map replBad) []) hgood
  have hdata : (safe_stem s).data = joinWords (pysplitAux (s.data.map replBad) []) := rfl
  have hmemword : ∀ c ∈ (safe_stem s).data, c = ' ' ∨ c ∈ s.data.map replBad := by
    intro c hc
    rw [hdata] at hc
    rcases mem_joinWords _ c hc with h | ⟨w, hw, hcw⟩
    · exact Or.inl h
    · rcases pysplitAux_chars (s.data.map replBad) [] w hw c hcw with h | h
      · simp at h
      · exact Or.inr h
  refine ⟨?_, ?_, ?_, ?_, ?_, ?_⟩
  · intro c hc
    rcases hmemword c hc with rfl | h
    · decide
    · rcases List.mem_map.mp h with ⟨d, -, rfl⟩
      exact replBad_not_bad d
  · intro c hc hsp
    rw [hdata] at hc
    rcases mem_joinWords _ c hc with h | ⟨w, hw, hcw⟩
    · exact h
    · have hf := (hgood w hw).2 c hcw
      rw [hsp] at hf
      cases hf
  · intro c hc
    rw [hdata] at hc
    exact hjp.2.1 c hc
  · intro c hc
    rw [hdata] at hc
    exact hjp.2.2 c hc
  · rw [hdata]
    exact hjp.1
  · rw [hdata, joinWords_filter _ (fun w hw => (hgood w hw).2),
      pysplitAux_flatten (s.data.map replBad) []]
    simp

/-- C9 witness: the conjuncts applied at a concrete input. -/
theorem C9_safe_stem_witness :
    'b' ∈ (safe_stem "a*b").data ∧ 'b' ∉ badChars :=
  ⟨by decide, (C9_safe_stem "a*b").1 'b' (by decide)⟩

/-! ### Helper lemmas: whole-run characterisations -/

theorem hashR_ok_of_isOk (it : Item) (h : isOkRes it.hashR = true) :
    it.hashR = Res.ok (itemHash it) := by
  cases hh : it.hashR with
  | ok v => simp [itemHash, hh]
  | err e => rw [hh] at h; simp [isOkRes] at h

theorem transcribeR_ok_of_isOk (it : Item) (h : isOkRes it.transcribeR = true) :
    ∃ t, it.transcribeR = Res.ok t := by
  cases hh : it.transcribeR with
  | ok v => exact ⟨v, rfl⟩
  | err e => rw [hh] at h; simp [isOkRes] at h

theorem runPipeline_nil (cfg : Config) (s : PState) : runPipeline cfg s [] = s := rfl

theorem runPipeline_cons (cfg : Config) (s : PState) (it : Item) (its : List Item) :
    runPipeline cfg s (it :: its) = runPipeline cfg (processItem cfg s it) its := rfl

theorem runPipeline_append (cfg : Config) (s : PState) (l1 l2 : List Item) :
    runPipeline cfg s (l1 ++ l2) = runPipeline cfg (runPipeline cfg s l1) l2 := by
  unfold runPipeline
  exact List.foldl_append _ _ _ _

theorem run_good_fresh (cfg : Config) : ∀ (items : List Item) (s : PState),
    (∀ it ∈ items, goodItem cfg it) →
    (items.map itemHash).Nodup →
    (∀ it ∈ items, itemHash it ∉ s.done) →
    (runPipeline cfg s items).ledger.map Record.sha256 =
      s.ledger.map Record.sha256 ++ items.map itemHash ∧
    (runPipeline cfg s items).ok = s.ok + items.length ∧
    (runPipeline cfg s items).failed = s.failed ∧
    (runPipeline cfg s items).skipped = s.skipped ∧
    (runPipeline cfg s items).errlog = s.errlog ∧
    (runPipeline cfg s items).calls = s.calls + items.length ∧
    (runPipeline cfg s items).txtFiles.length = s.txtFiles.length + items.length ∧
    (∀ x, x ∈ (runPipeline cfg s items).done ↔ x ∈ s.done ∨ x ∈ items.map itemHash) := by
  intro items
  induction items with
  | nil =>
    intro s _ _ _
    simp [runPipeline_nil]
  | cons it its ih =>
    intro s hgood hnodup hfresh
    have hg := hgood it (by simp)
    have hok := hashR_ok_of_isOk it hg.1
    obtain ⟨t, ht⟩ := transcribeR_ok_of_isOk it hg.2.2
    have hfr : itemHash it ∉ s.done := hfresh it (by simp)
    obtain ⟨hl, hf, hd, hk, hsk, hfl, hcl, hel, -, -⟩ :=
      processItem_success_proj cfg s it (itemHash it) t hok hfr hg.2.1 ht
    have hnodup' : (itemHash it :: its.map itemHash).Nodup := by simpa using hnodup
    have hnd' : (its.map itemHash).Nodup := (List.nodup_cons.mp hnodup').2
    have hht : itemHash it ∉ its.map itemHash := (List.nodup_cons.mp hnodup').1
    have hfresh' : ∀ u ∈ its, itemHash u ∉ (processItem cfg s it).done := by
      intro u hu
      rw [hd, List.mem_insert_iff]
      rintro (heq | hmem)
      · exact hht (List.mem_map.mpr ⟨u, hu, heq⟩)
      · exact hfresh u (by simp [hu]) hmem
    obtain ⟨ihl, ihk, ihfl, ihsk, ihel, ihcl, ihtf, ihdone⟩ :=
      ih (processItem cfg s it) (fun u hu => hgood u (by simp [hu])) hnd' hfresh'
    refine ⟨?_, ?_, ?_, ?_, ?_, ?_, ?_, ?_⟩
    · rw [runPipeline_cons, ihl, hl]
      simp [mkRecord, List.append_assoc]
    · rw [runPipeline_cons, ihk, hk]
      simp [Nat.add_assoc, Nat.add_comm 1]
    · rw [runPipeline_cons, ihfl, hfl]
    · rw [runPipeline_cons, ihsk, hsk]
    · rw [runPipeline_cons, ihel, hel]
    · rw [runPipeline_cons, ihcl, hcl]
      simp [Nat.add_assoc, Nat.add_comm 1]
    · rw [runPipeline_cons, ihtf, hf]
      simp [Nat.add_assoc, Nat.add_comm 1]
    · intro x
      rw [runPipeline_cons, ihdone x, hd, List.mem_insert_iff]
      simp only [List.map_cons, List.mem_cons]
      tauto

theorem run_good_inv (cfg : Config) : ∀ (items : List Item) (s : PState),
    (∀ it ∈ items, goodItem cfg it) →
    (∀ x, x ∈ s.done ↔ x ∈ s.ledger.map Record.sha256) →
    (s.ledger.map Record.sha256).Nodup →
    (∀ x, x ∈ (runPipeline cfg s items).done ↔
      x ∈ (runPipeline cfg s items).ledger.map Record.sha256) ∧
    ((runPipeline cfg s items).ledger.map Record.sha256).Nodup ∧
    (∀ x, x ∈ (runPipeline cfg s items).ledger.map Record.sha256 ↔
      x ∈ s.ledger.map Record.sha256 ∨ x ∈ items.map itemHash) ∧
    (runPipeline cfg s items).failed = s.failed ∧
    (runPipeline cfg s items).errlog = s.errlog := by
  intro items
  induction items with
  | nil =>
    intro s _ hinv hnd
    rw [runPipeline_nil]
    exact ⟨hinv, hnd, fun x => by simp, rfl, rfl⟩
  | cons it its ih =>
    intro s hgood hinv hnd
    have hg := hgood it (by simp)
    have hok := hashR_ok_of_isOk it hg.1
    by_cases hmem : itemHash it ∈ s.done
    · obtain ⟨hl, -, hd, -, -, hfl, -, hel, -, -⟩ :=
        processItem_skip_proj cfg s it (itemHash it) hok hmem
      obtain ⟨ihinv, ihnd, ihcov, ihfl, ihel⟩ :=
        ih (processItem cfg s it) (fun u hu => hgood u (by simp [hu]))
          (fun x => by rw [hd, hl]; exact hinv x) (by rw [hl]; exact hnd)
      refine ⟨by rw [runPipeline_cons]; exact ihinv, by rw [runPipeline_cons]; exact ihnd,
        ?_, ?_, ?_⟩
      · intro x
        rw [runPipeline_cons, ihcov x, hl]
        constructor
        · rintro (h | h)
          · exact Or.inl h
          · exact Or.inr (by simp [h])
        · rintro (h | h)
          · exact Or.inl h
          · rcases (by simpa using h : x = itemHash it ∨ x ∈ its.map itemHash) with rfl | h'
            · exact Or.inl ((hinv (itemHash it)).mp hmem)
            · exact Or.inr h'
      · rw [runPipeline_cons, ihfl, hfl]
      · rw [runPipeline_cons, ihel, hel]
    · obtain ⟨t, ht⟩ := transcribeR_ok_of_isOk it hg.2.2
      obtain ⟨hl, -, hd, -, -, hfl, -, hel, -, -⟩ :=
        processItem_success_proj cfg s it (itemHash it) t hok hmem hg.2.1 ht
      have hlmap : (processItem cfg s it).ledger.map Record.sha256 =
          s.ledger.map Record.sha256 ++ [itemHash it] := by
        rw [hl]
        simp [mkRecord]
      have hinv' : ∀ x, x ∈ (processItem cfg s it).done ↔
          x ∈ (processItem cfg s it).ledger.map Record.sha256 := by
        intro x
        rw [hd, hlmap, List.mem_insert_iff, List.mem_append, List.mem_singleton]
        rw [hinv x]
        tauto
      have hnd' : ((processItem cfg s it).ledger.map Record.sha256).Nodup := by
        rw [hlmap, List.nodup_append]
        refine ⟨hnd, by simp, ?_⟩
        intro a ha hb
        rw [List.mem_singleton] at hb
        subst hb
        exact hmem ((hinv (itemHash it)).mpr ha)
      obtain ⟨ihinv, ihnd, ihcov, ihfl, ihel⟩ :=
        ih (processItem cfg s it) (fun u hu => hgood u (by simp [hu])) hinv' hnd'
      refine ⟨by rw [runPipeline_cons]; exact ihinv, by rw [runPipeline_cons]; exact ihnd,
        ?_, ?_, ?_⟩
      · intro x
        rw [runPipeline_cons, ihcov x, hlmap, List.mem_append, List.mem_singleton]
        simp only [List.map_cons, List.mem_cons]
        tauto
      · rw [runPipeline_cons, ihfl, hfl]
      · rw [runPipeline_cons, ihel, hel]

theorem run_skip_all (cfg : Config) : ∀ (items : List Item) (s : PState),
    (∀ it ∈ items, it.hashR = Res.ok (itemHash it) ∧ itemHash it ∈ s.done) →
    (runPipeline cfg s items).ledger = s.ledger ∧
    (runPipeline cfg s items).calls = s.calls ∧
    (runPipeline cfg s items).ok = s.ok ∧
    (runPipeline cfg s items).failed = s.failed ∧
    (runPipeline cfg s items).skipped = s.skipped + items.length ∧
    (runPipeline cfg s items).done = s.done := by
  intro items
  induction items with
  | nil =>
    intro s _
    simp [runPipeline_nil]
  | cons it its ih =>
    intro s hall
    have hit := hall it (by simp)
    obtain ⟨hl, -, hd, hk, hsk, hfl, hcl, -, -, -⟩ :=
      processItem_skip_proj cfg s it (itemHash it) hit.1 hit.2
    obtain ⟨ihl, ihcl, ihk, ihfl, ihsk, ihd⟩ :=
      ih (processItem cfg s it) (fun u hu => ⟨(hall u (by simp [hu])).1,
        by rw [hd]; exact (hall u (by simp [hu])).2⟩)
    refine ⟨?_, ?_, ?_, ?_, ?_, ?_⟩
    · rw [runPipeline_cons, ihl, hl]
    · rw [runPipeline_cons, ihcl, hcl]
    · rw [runPipeline_cons, ihk, hk]
    · rw [runPipeline_cons, ihfl, hfl]
    · rw [runPipeline_cons, ihsk, hsk]
      simp [Nat.add_assoc, Nat.add_comm 1]
    · rw [runPipeline_cons, ihd, hd]

/-- C1: a candidate whose content hash is already in the seen set is
skipped with no transcription call and no ledger append; over a run of all
successfully processed items, the ledger holds exactly one record per
distinct item hash; and a second run over the same items, with the seen
set reloaded from the ledger file, appends nothing, calls the
transcription service zero times, and reports only skips. -/
theorem C1_dedup_idempotent (cfg : Config) (items : List Item)
    (decode : String → Option String) (dump : Record → String)
    (hgood : ∀ it ∈ items, goodItem cfg it)
    (hsha : ∀ it ∈ items, itemHash it ≠ "")
    (hdump : ∀ r ∈ (runPipeline cfg initState items).ledger,
      pyStrip (dump r) ≠ "" ∧ decode (pyStrip (dump r)) = some r.sha256) :
    (∀ (s : PState) (it : Item) (h : String), it.hashR = Res.ok h → h ∈ s.done →
      (processItem cfg s it).calls = s.calls ∧ (processItem cfg s it).ledger = s.ledger) ∧
    ((runPipeline cfg initState items).ledger.map Record.sha256).Nodup ∧
    (∀ x, x ∈ (runPipeline cfg initState items).ledger.map Record.sha256 ↔
      x ∈ items.map itemHash) ∧
    (runPipeline cfg
        { initState with
          ledger := (runPipeline cfg initState items).ledger,
          done := load_done_hashes decode
            (some ((runPipeline cfg initState items).ledger.map dump)) } items).ledger =
      (runPipeline cfg initState items).ledger ∧
    (runPipeline cfg
        { initState with
          ledger := (runPipeline cfg initState items).ledger,
          done := load_done_hashes decode
            (some ((runPipeline cfg initState items).ledger.map dump)) } items).calls = 0 ∧
    (runPipeline cfg
        { initState with
          ledger := (runPipeline cfg initState items).ledger,
          done := load_done_hashes decode
            (some ((runPipeline cfg initState items).ledger.map dump)) } items).ok = 0 ∧
    (runPipeline cfg
        { initState with
          ledger := (runPipeline cfg initState items).ledger,
          done := load_done_hashes decode
            (some ((runPipeline cfg initState items).ledger.map dump)) } items).failed = 0 ∧
    (runPipeline cfg
        { initState with
          ledger := (runPipeline cfg initState items).ledger,
          done := load_done_hashes decode
            (some ((runPipeline cfg initState items).ledger.map dump)) } items).skipped =
      items.length := by
  have hskipitem : ∀ (s : PState) (it : Item) (h : String), it.hashR = Res.ok h →
      h ∈ s.done →
      (processItem cfg s it).calls = s.calls ∧ (processItem cfg s it).ledger = s.ledger := by
    intro s it h hok hmem
    obtain ⟨hl, -, -, -, -, -, hcl, -, -, -⟩ := processItem_skip_proj cfg s it h hok hmem
    exact ⟨hcl, hl⟩
  have hinv0 : ∀ x, x ∈ initState.done ↔ x ∈ initState.ledger.map Record.sha256 := by
    intro x; simp [initState]
  have hnd0 : (initState.ledger.map Record.sha256).Nodup := by simp [initState]
  obtain ⟨-, hnd1, hcov1, -, -⟩ := run_good_inv cfg items initState hgood hinv0 hnd0
  have hcov : ∀ x, x ∈ (runPipeline cfg initState items).ledger.map Record.sha256 ↔
      x ∈ items.map itemHash := by
    intro x
    rw [hcov1 x]
    simp [initState]
  have hD2 : ∀ it ∈ items, itemHash it ∈ load_done_hashes decode
      (some ((runPipeline cfg initState items).ledger.map dump)) := by
    intro it hit
    have hx : itemHash it ∈ (runPipeline cfg initState items).ledger.map Record.sha256 :=
      (hcov _).mpr (List.mem_map.mpr ⟨it, hit, rfl⟩)
    obtain ⟨r, hr, hrs⟩ := List.mem_map.mp hx
    refine (mem_loadFold decode ((runPipeline cfg initState items).ledger.map dump) []
      (itemHash it)).mpr (Or.inr ⟨dump r, List.mem_map.mpr ⟨r, hr, rfl⟩,
        (hdump r hr).1, ?_, hsha it hit⟩)
    rw [(hdump r hr).2, hrs]
  obtain ⟨rl, rc, rk, rf, rs, -⟩ := run_skip_all cfg items
    { initState with
      ledger := (runPipeline cfg initState items).ledger,
      done := load_done_hashes decode
        (some ((runPipeline cfg initState items).ledger.map dump)) }
    (fun it hit => ⟨hashR_ok_of_isOk it (hgood it hit).1, hD2 it hit⟩)
  refine ⟨hskipitem, hnd1, hcov, ?_, ?_, ?_, ?_, ?_⟩
  · rw [rl]
  · rw [rc]
    simp [initState]
  · rw [rk]
    simp [initState]
  · rw [rf]
    simp [initState]
  · rw [rs]
    simp [initState]

/-- C1 witness: one good item, a trivial record dump and decode. -/
theorem C1_dedup_idempotent_witness :
    (∀ it ∈ ([⟨"a.m4a", 3, "20240101 120000", "T", Res.ok "ha", true, Res.ok "hello"⟩] :
        List Item), goodItem ⟨"whisper-1", some "pt", true, true, 25⟩ it) ∧
    (∀ r ∈ (runPipeline ⟨"whisper-1", some "pt", true, true, 25⟩ initState
        [⟨"a.m4a", 3, "20240101 120000", "T", Res.ok "ha", true, Res.ok "hello"⟩]).ledger,
      pyStrip ((fun r : Record => r.sha256) r) ≠ "" ∧
      (fun l : String => some l) (pyStrip ((fun r : Record => r.sha256) r)) = some r.sha256) ∧
    ((runPipeline ⟨"whisper-1", some "pt", true, true, 25⟩ initState
        [⟨"a.m4a", 3, "20240101 120000", "T", Res.ok "ha", true, Res.ok "hello"⟩]).ledger.map
      Record.sha256).Nodup := by
  refine ⟨by decide, by decide, ?_⟩
  exact (C1_dedup_idempotent ⟨"whisper-1", some "pt", true, true, 25⟩
    [⟨"a.m4a", 3, "20240101 120000", "T", Res.ok "ha", true, Res.ok "hello"⟩]
    (fun l => some l) (fun r => r.sha256) (by decide) (by decide) (by decide)).2.1

/-- C5: in a run whose candidates are `pre ++ bad :: post`, with every item
of `pre` and `post` fully succeeding and `bad` failing (hash error, or
transcription error), the failure is caught at the item boundary: the run
finishes with one failure, zero skips, exactly one error-log line carrying
the item's timestamp, filename, category tag and detail, and all other
items still produce their ledger entries and transcripts — nothing is
rolled back. -/
theorem C5_failure_isolation (cfg : Config) (pre post : List Item) (bad : Item)
    (hgoodpre : ∀ it ∈ pre, goodItem cfg it)
    (hgoodpost : ∀ it ∈ post, goodItem cfg it)
    (hnodup : ((pre ++ bad :: post).map itemHash).Nodup)
    (hbad : (∃ e, bad.hashR = Res.err e) ∨
      (isOkRes bad.hashR = true ∧ (cfg.maxBytes < bad.size → bad.transcodeOk = true) ∧
        ∃ e, bad.transcribeR = Res.err e)) :
    (runPipeline cfg initState (pre ++ bad :: post)).ok = pre.length + post.length ∧
    (runPipeline cfg initState (pre ++ bad :: post)).failed = 1 ∧
    (runPipeline cfg initState (pre ++ bad :: post)).skipped = 0 ∧
    (∃ tag e, (runPipeline cfg initState (pre ++ bad :: post)).errlog =
        [errLine bad.now bad.name tag e] ∧
      ((tag = "hash_error" ∧ bad.hashR = Res.err e) ∨
       (tag = "transcribe_error" ∧ bad.transcribeR = Res.err e))) ∧
    (runPipeline cfg initState (pre ++ bad :: post)).ledger.map Record.sha256 =
      (pre ++ post).map itemHash ∧
    (runPipeline cfg initState (pre ++ bad :: post)).txtFiles.length =
      pre.length + post.length := by
  have hmap : (pre ++ bad :: post).map itemHash =
      pre.map itemHash ++ itemHash bad :: post.map itemHash := by simp
  rw [hmap, List.nodup_append] at hnodup
  obtain ⟨hndpre, hndcons, hdisj⟩ := hnodup
  have hndpost : (post.map itemHash).Nodup := (List.nodup_cons.mp hndcons).2
  have hbadpre : itemHash bad ∉ pre.map itemHash := by
    intro hmem
    exact hdisj hmem (by simp)
  have hprepost : ∀ x ∈ post.map itemHash, x ∉ pre.map itemHash := by
    intro x hx hmem
    exact hdisj hmem (by simp [hx])
  obtain ⟨p_l, p_ok, p_fl, p_sk, p_el, p_cl, p_tf, p_done⟩ :=
    run_good_fresh cfg pre initState hgoodpre hndpre (by intro it _; simp [initState])
  have hsplit : runPipeline cfg initState (pre ++ bad :: post) =
      runPipeline cfg (processItem cfg (runPipeline cfg initState pre) bad) post := by
    rw [runPipeline_append, runPipeline_cons]
  obtain ⟨tag, e, b_l, b_f, b_d, b_k, b_s, b_fl, b_el, b_tag⟩ : ∃ tag e,
      (processItem cfg (runPipeline cfg initState pre) bad).ledger =
        (runPipeline cfg initState pre).ledger ∧
      (processItem cfg (runPipeline cfg initState pre) bad).txtFiles =
        (runPipeline cfg initState pre).txtFiles ∧
      (processItem cfg (runPipeline cfg initState pre) bad).done =
        (runPipeline cfg initState pre).done ∧
      (processItem cfg (runPipeline cfg initState pre) bad).ok =
        (runPipeline cfg initState pre).ok ∧
      (processItem cfg (runPipeline cfg initState pre) bad).skipped =
        (runPipeline cfg initState pre).skipped ∧
      (processItem cfg (runPipeline cfg initState pre) bad).failed =
        (runPipeline cfg initState pre).failed + 1 ∧
      (processItem cfg (runPipeline cfg initState pre) bad).errlog =
        (runPipeline cfg initState pre).errlog ++ [errLine bad.now bad.name tag e] ∧
      ((tag = "hash_error" ∧ bad.hashR = Res.err e) ∨
       (tag = "transcribe_error" ∧ bad.transcribeR = Res.err e)) := by
    rcases hbad with ⟨e, he⟩ | ⟨hbok, hbgate, e, he⟩
    · obtain ⟨hl, hf, hd, hk, hs, hfl2, -, hel, -, -⟩ :=
        processItem_hashErr_proj cfg (runPipeline cfg initState pre) bad e he
      exact ⟨"hash_error", e, hl, hf, hd, hk, hs, hfl2, hel, Or.inl ⟨rfl, he⟩⟩
    · have hok := hashR_ok_of_isOk bad hbok
      have hfr : itemHash bad ∉ (runPipeline cfg initState pre).done := by
        intro hmem
        rcases (p_done (itemHash bad)).mp hmem with h0 | h0
        · simp [initState] at h0
        · exact hbadpre h0
      obtain ⟨hl, hf, hd, hk, hs, hfl2, -, hel, -, -⟩ :=
        processItem_transcribeFail_proj cfg (runPipeline cfg initState pre) bad
          (itemHash bad) e hok hfr hbgate he
      exact ⟨"transcribe_error", e, hl, hf, hd, hk, hs, hfl2, hel, Or.inr ⟨rfl, he⟩⟩
  have hfreshpost : ∀ u ∈ post,
      itemHash u ∉ (processItem cfg (runPipeline cfg initState pre) bad).done := by
    intro u hu
    rw [b_d]
    intro hmem
    rcases (p_done (itemHash u)).mp hmem with h0 | h0
    · simp [initState] at h0
    · exact hprepost (itemHash u) (List.mem_map.mpr ⟨u, hu, rfl⟩) h0
  obtain ⟨q_l, q_ok, q_fl, q_sk, q_el, q_cl, q_tf, q_done⟩ :=
    run_good_fresh cfg post (processItem cfg (runPipeline cfg initState pre) bad)
      hgoodpost hndpost hfreshpost
  rw [hsplit]
  refine ⟨?_, ?_, ?_, ⟨tag, e, ?_, b_tag⟩, ?_, ?_⟩
  · rw [q_ok, b_k, p_ok]
    simp [initState]
  · rw [q_fl, b_fl, p_fl]
    simp [initState]
  · rw [q_sk, b_s, p_sk]
    simp [initState]
  · rw [q_el, b_el, p_el]
    simp [initState]
  · rw [q_l, b_l, p_l]
    simp [initState]
  · rw [q_tf, b_f, p_tf]
    simp [initState]

/-- C5 witness: three items where the middle one fails hashing. -/
theorem C5_failure_isolation_witness :
    ((((([⟨"a.m4a", 3, "sA", "tA", Res.ok "ha", true, Res.ok "ta"⟩] : List Item) ++
        (⟨"b.m4a", 3, "sB", "tB", Res.err "boom", true, Res.ok "tb"⟩ : Item) ::
        [⟨"c.m4a", 3, "sC", "tC", Res.ok "hc", true, Res.ok "tc"⟩]) :
          List Item).map itemHash).Nodup) ∧
    (runPipeline ⟨"whisper-1", some "pt", true, true, 25⟩ initState
      (([⟨"a.m4a", 3, "sA", "tA", Res.ok "ha", true, Res.ok "ta"⟩] ++
        (⟨"b.m4a", 3, "sB", "tB", Res.err "boom", true, Res.ok "tb"⟩ : Item) ::
        [⟨"c.m4a", 3, "sC", "tC", Res.ok "hc", true, Res.ok "tc"⟩] : List Item))).failed = 1 ∧
    (runPipeline ⟨"whisper-1", some "pt", true, true, 25⟩ initState
      (([⟨"a.m4a", 3, "sA", "tA", Res.ok "ha", true, Res.ok "ta"⟩] ++
        (⟨"b.m4a", 3, "sB", "tB", Res.err "boom", true, Res.ok "tb"⟩ : Item) ::
        [⟨"c.m4a", 3, "sC", "tC", Res.ok "hc", true, Res.ok "tc"⟩] : List Item))).ok = 2 := by
  refine ⟨by decide, ?_, ?_⟩
  · exact (C5_failure_isolation ⟨"whisper-1", some "pt", true, true, 25⟩
      [⟨"a.m4a", 3, "sA", "tA", Res.ok "ha", true, Res.ok "ta"⟩]
      [⟨"c.m4a", 3, "sC", "tC", Res.ok "hc", true, Res.ok "tc"⟩]
      ⟨"b.m4a", 3, "sB", "tB", Res.err "boom", true, Res.ok "tb"⟩
      (by decide) (by decide) (by decide) (Or.inl ⟨"boom", rfl⟩)).2.1
  · have h := (C5_failure_isolation ⟨"whisper-1", some "pt", true, true, 25⟩
      [⟨"a.m4a", 3, "sA", "tA", Res.ok "ha", true, Res.ok "ta"⟩]
      [⟨"c.m4a", 3, "sC", "tC", Res.ok "hc", true, Res.ok "tc"⟩]
      ⟨"b.m4a", 3, "sB", "tB", Res.err "boom", true, Res.ok "tb"⟩
      (by decide) (by decide) (by decide) (Or.inl ⟨"boom", rfl⟩)).1
    simpa using h

/-- C10: the archive relocation overwrites: `setAssoc` leaves exactly one
entry per name, the skip path archives under the item's original filename
with overwrite semantics, and archiving two distinct files with the same
name (in turn, both succeeding) leaves only the later one. -/
theorem C10_archive_overwrite (cfg : Config) (A B : Item)
    (hname : A.name = B.name)
    (hgA : goodItem cfg A) (hgB : goodItem cfg B)
    (hAB : itemHash A ≠ itemHash B)
    (hmove : cfg.moveAudio = true) :
    (∀ (l : List (String × String)) (k v : String),
      (setAssoc l k v).filter (fun p => p.1 = k) = [(k, v)]) ∧
    (∀ (s : PState) (it : Item) (h : String),
      it.hashR = Res.ok h → h ∈ s.done → cfg.moveSkipped = true →
      (processItem cfg s it).archive = setAssoc s.archive it.name h) ∧
    (runPipeline cfg initState [A, B]).archive = [(B.name, itemHash B)] := by
  refine ⟨?_, ?_, ?_⟩
  · intro l k v
    unfold setAssoc
    rw [List.filter_append]
    have h1 : (l.filter (fun p => p.1 ≠ k)).filter (fun p => p.1 = k) = [] := by
      induction l with
      | nil => rfl
      | cons a l ih =>
        rw [List.filter_cons]
        by_cases h : a.1 = k
        · rw [if_neg (by simp [h])]
          exact ih
        · rw [if_pos (by simp [h]), List.filter_cons, if_neg (by simp [h])]
          exact ih
    rw [h1, List.filter_cons]
    simp
  · intro s it h hok hmem hms
    obtain ⟨-, -, -, -, -, -, -, -, -, har⟩ := processItem_skip_proj cfg s it h hok hmem
    rw [har, if_pos hms]
  · obtain ⟨t1, ht1⟩ := transcribeR_ok_of_isOk A hgA.2.2
    have hokA := hashR_ok_of_isOk A hgA.1
    obtain ⟨-, -, hdA, -, -, -, -, -, -, harA⟩ :=
      processItem_success_proj cfg initState A (itemHash A) t1 hokA
        (by simp [initState]) hgA.2.1 ht1
    obtain ⟨t2, ht2⟩ := transcribeR_ok_of_isOk B hgB.2.2
    have hokB := hashR_ok_of_isOk B hgB.1
    have hfrB : itemHash B ∉ (processItem cfg initState A).done := by
      rw [hdA, List.mem_insert_iff]
      rintro (heq | hmem)
      · exact hAB heq.symm
      · simp [initState] at hmem
    obtain ⟨-, -, -, -, -, -, -, -, -, harB⟩ :=
      processItem_success_proj cfg (processItem cfg initState A) B (itemHash B) t2 hokB
        hfrB hgB.2.1 ht2
    rw [show runPipeline cfg initState [A, B] =
        processItem cfg (processItem cfg initState A) B from rfl]
    rw [harB, if_pos hmove, harA, if_pos hmove]
    unfold setAssoc
    rw [show initState.archive = [] from rfl]
    simp only [List.filter_nil, List.nil_append]
    rw [List.filter_cons, if_neg (by simp [hname]), List.filter_nil]
    simp

/-- C10 witness: two same-named items with distinct hashes; the archive
ends with only the later one. -/
theorem C10_archive_overwrite_witness :
    (⟨"x.m4a", 3, "sA", "tA", Res.ok "ha", true, Res.ok "ta"⟩ : Item).name =
      (⟨"x.m4a", 3, "sB", "tB", Res.ok "hb", true, Res.ok "tb"⟩ : Item).name ∧
    (runPipeline ⟨"whisper-1", some "pt", true, true, 25⟩ initState
      [⟨"x.m4a", 3, "sA", "tA", Res.ok "ha", true, Res.ok "ta"⟩,
       ⟨"x.m4a", 3, "sB", "tB", Res.ok "hb", true, Res.ok "tb"⟩]).archive =
      [("x.m4a", itemHash ⟨"x.m4a", 3, "sB", "tB", Res.ok "hb", true, Res.ok "tb"⟩)] := by
  refine ⟨rfl, ?_⟩
  exact (C10_archive_overwrite ⟨"whisper-1", some "pt", true, true, 25⟩
    ⟨"x.m4a", 3, "sA", "tA", Res.ok "ha", true, Res.ok "ta"⟩
    ⟨"x.m4a", 3, "sB", "tB", Res.ok "hb", true, Res.ok "tb"⟩
    rfl (by decide) (by decide) (by decide) rfl).2.2
